import Mathlib

/-
Verification development for the talloc allocator (src/talloc.h).

The embedding uses flat natural-number addresses for pointers.  An arena's
intrusive singly linked free list is represented by the Lean list of nodes
obtained by traversing the `next` pointers from `free_list`; an allocated
block (a `talloc_header_t` stamped with TALLOC_MAGIC) is represented as a
`Chunk` in the arena's `allocs` field (the header carries the magic exactly
while the block is allocated, since freeing a block overwrites the magic
field with the chunk's `next` pointer).  The doubly linked arena list is the
Lean list of arenas obtained by traversing `next` from `state.arena_head`;
`state.arena_tail` is kept separately as the base address it stores, because
the code can let it dangle.  `mmap`/`munmap` results are oracle parameters.
Steps whose C counterpart has undefined behavior (reading the uninitialized
`to_allocate`, or writing through a NULL/dangling `arena_tail`) return
`none` at top level.
-/

namespace Talloc

/-- Size in bytes of `talloc_chunk_t` and also of `talloc_header_t` on LP64:
8-byte `size_t` plus an 8-byte pointer, resp. 8-byte `size_t` plus a 4-byte
`int` padded to the 8-byte alignment. -/
def chunkHdr : Nat := 16

/-- Size in bytes of `talloc_arena_t` on LP64 (five 8-byte fields). -/
def arenaHdr : Nat := 40

/-- TALLOC_ARENA_OVERHEAD = sizeof(talloc_arena_t) + sizeof(talloc_chunk_t). -/
def overhead : Nat := arenaHdr + chunkHdr

/-- Modulus of `size_t` arithmetic (LP64). -/
def sizeMod : Nat := 2 ^ 64

/-- A chunk of arena memory: `off` is the address of its 16-byte header
(`talloc_chunk_t` when free, `talloc_header_t` when allocated) and `size`
the usable byte count stored in the header's first field. -/
structure Chunk where
  off : Nat
  size : Nat
deriving DecidableEq, Repr

/-- One past the last byte of a chunk's header-plus-data range. -/
def chunkEnd (c : Chunk) : Nat := c.off + chunkHdr + c.size

/-- An arena (`talloc_arena_t`) at base address `base`.  `free_list` is the
traversal of the free-chunk linked list, `allocs` the set of live allocated
blocks (their headers carry TALLOC_MAGIC), most recently allocated first. -/
structure Arena where
  base : Nat
  allocated : Nat
  max_free_space : Nat
  free_list : List Chunk
  allocs : List Chunk
deriving DecidableEq, Repr

/-- The allocator state (`talloc_state_t`).  `arenas` is the traversal of
the arena list from `arena_head`; `arena_tail` is the address stored in
`state.arena_tail` (which the code can leave dangling). -/
structure TState where
  arenas : List Arena
  arena_tail : Option Nat
  minallocsize : Nat
  pagesize : Nat
  initialized : Bool
deriving DecidableEq, Repr

/-- The zero-initialized global `state`. -/
def state0 : TState :=
  { arenas := [], arena_tail := none, minallocsize := 0, pagesize := 0,
    initialized := false }

/-- Largest size in a chunk list (spec form used in proofs). -/
def maxSizes (l : List Chunk) : Nat :=
  l.foldr (fun c m => max c.size m) 0

/-- The full rescan at the end of TAlloc_malloc (lines 295-305): take the
first chunk's size and walk the rest of the list keeping the running max. -/
def listMaxSizes : List Chunk → Nat
  | [] => 0
  | c :: tl => tl.foldl (fun m d => if d.size > m then d.size else m) c.size

/-- TAlloc_init_arena (lines 55-65): a fresh arena holds one free chunk,
starting right after the arena struct, spanning everything else. -/
def TAlloc_init_arena (base allocated : Nat) : Arena :=
  { base := base, allocated := allocated,
    max_free_space := allocated - overhead,
    free_list := [⟨base + arenaHdr, allocated - overhead⟩],
    allocs := [] }

/-- TAlloc_initialize (lines 68-79).  `pgsz` is the result of
`getpagesize()` and `mapR` the `mmap` result (`none` = MAP_FAILED).
`pagesize` and `minallocsize` are set before the mapping is attempted; on
mapping failure `arena_head` is set to NULL (empty traversal) and
`initialized` stays 0. -/
def TAlloc_init (s : TState) (pgsz : Nat) (mapR : Option Nat) : TState :=
  let m := pgsz * 1000
  match mapR with
  | none => { s with pagesize := pgsz, minallocsize := m, arenas := [] }
  | some addr =>
      { s with
        pagesize := pgsz
        minallocsize := m
        arenas := [TAlloc_init_arena addr m]
        arena_tail := some addr
        initialized := true }

/-- Arena-size rounding in TAlloc_create_arena (lines 90-100), applied to
the overhead-inclusive total `space`.  There is no branch for
`space = minallocsize`: in that case `to_allocate` is read uninitialized,
modelled as `none`. -/
def createArenaSize (minalloc pgsz space : Nat) : Option Nat :=
  if space < minalloc then some minalloc
  else if space > minalloc then
    some (pgsz * (space / pgsz + (if space % pgsz > 0 then 1 else 0)))
  else none

/-- TAlloc_create_arena (lines 85-113).  Result: `none` = undefined
behavior (the arena size was read uninitialized and `mmap` then succeeded
with an indeterminate length); `some none` = NULL (overflow detected, or
`mmap` failed); `some (some a)` = the freshly initialized arena.  The
overflow test models the wrapping `size_t` comparison on line 87. -/
def TAlloc_create_arena (s : TState) (space_needed : Nat) (mapR : Option Nat) :
    Option (Option Arena) :=
  if (space_needed + overhead) % sizeMod < space_needed then some none
  else
    match createArenaSize s.minallocsize s.pagesize (space_needed + overhead) with
    | none =>
        match mapR with
        | none => some none
        | some _ => none
    | some len =>
        match mapR with
        | none => some none
        | some addr => some (some (TAlloc_init_arena addr len))

/-- TAlloc_alloc_more_space (lines 117-129).  The new arena is linked in by
writing `state.arena_tail->next`; if `arena_tail` is NULL or does not point
at the last live arena (it is never updated when the tail arena is
unmapped), that write is a NULL dereference or use-after-unmap: `none`.
Otherwise returns the updated state and the new arena's index. -/
def TAlloc_alloc_more_space (s : TState) (space_needed : Nat) (mapR : Option Nat) :
    Option (TState × Option Nat) :=
  match TAlloc_create_arena s space_needed mapR with
  | none => none
  | some none => some (s, none)
  | some (some ar) =>
      match s.arena_tail, s.arenas.getLast? with
      | some t, some last =>
          if last.base = t then
            some ({ s with
                    arenas := s.arenas ++ [ar]
                    arena_tail := some ar.base }, some s.arenas.length)
          else none
      | _, _ => none

/-- Arena-scan loop of TAlloc_get_accommodating_arena (lines 222-223):
index of the first arena whose `max_free_space` can accommodate `n`. -/
def findAccomIdx : List Arena → Nat → Option Nat
  | [], _ => none
  | a :: tl, n =>
      if n ≤ a.max_free_space then some 0 else (findAccomIdx tl n).map (· + 1)

/-- TAlloc_get_accommodating_arena (lines 221-230): scan, then fall back to
TAlloc_alloc_more_space.  Returns the (possibly extended) state and the
index of the accommodating arena (`none` = allocation failure). -/
def TAlloc_get_accommodating_arena (s : TState) (n : Nat) (mapR : Option Nat) :
    Option (TState × Option Nat) :=
  match findAccomIdx s.arenas n with
  | some i => some (s, some i)
  | none => TAlloc_alloc_more_space s n mapR

/-- First-fit scan of TAlloc_malloc (lines 255-260): splits the free list
into the walked prefix (all too small), the first fitting chunk, and the
rest; `none` when no chunk fits. -/
def splitScan : List Chunk → Nat → Option (List Chunk × Chunk × List Chunk)
  | [], _ => none
  | c :: tl, n =>
      if c.size < n then
        (splitScan tl n).map (fun x => (c :: x.1, x.2.1, x.2.2))
      else some ([], c, tl)

/-- TAlloc_coalesce (lines 145-152) acting on a node `c` whose `next`
chain is `rest`: if the next free chunk starts exactly at `c`'s end, absorb
it (its header too) and unlink it. -/
def TAlloc_coalesce (c : Chunk) (rest : List Chunk) : Chunk × List Chunk :=
  match rest with
  | [] => (c, [])
  | d :: tl =>
      if d.off = chunkEnd c then (⟨c.off, c.size + chunkHdr + d.size⟩, tl)
      else (c, d :: tl)

/-- The free-list update on lines 291-292 of TAlloc_malloc: with a NULL
trailing pointer the head is replaced by `chain`; otherwise the code writes
`arena->free_list->next = next_free_chunk`, i.e. it rewires the list
HEAD's next link (not the trailing pointer's), so every node of the walked
prefix after the head is dropped from the list. -/
def spliceList (pre chain : List Chunk) : List Chunk :=
  match pre with
  | [] => chain
  | c0 :: _ => c0 :: chain

/-- Body of TAlloc_malloc (lines 255-310) inside the chosen arena:
first-fit scan, optional split with defensive coalesce of the remainder and
upward `max_free_space` adjustment, header stamping (the block joins
`allocs`), free-list splice, and conditional full rescan of the maximum.
Returns the updated arena and the address handed to the client. -/
def mallocInArena (a : Arena) (n : Nat) : Option (Arena × Nat) :=
  match splitScan a.free_list n with
  | none => none
  | some (pre, h, post) =>
      if chunkHdr < h.size - n then
        let rc := TAlloc_coalesce ⟨h.off + chunkHdr + n, h.size - n - chunkHdr⟩ post
        let m1 := if a.max_free_space < rc.1.size then rc.1.size else a.max_free_space
        let affected := decide (a.max_free_space ≤ h.size) && decide (rc.1.size < h.size)
        let newList := spliceList pre (rc.1 :: rc.2)
        some ({ a with
                free_list := newList
                max_free_space := if affected then listMaxSizes newList else m1
                allocs := ⟨h.off, n⟩ :: a.allocs }, h.off + chunkHdr)
      else
        let newList := spliceList pre post
        some ({ a with
                free_list := newList
                max_free_space :=
                  if decide (a.max_free_space ≤ h.size) then listMaxSizes newList
                  else a.max_free_space
                allocs := ⟨h.off, n + (h.size - n)⟩ :: a.allocs }, h.off + chunkHdr)

/-- State reached after the lazy-initialization line of TAlloc_malloc
(line 247). -/
def afterInit (s : TState) (pgsz : Nat) (im : Option Nat) : TState :=
  if s.initialized then s else TAlloc_init s pgsz im

/-- Length of the mapping TAlloc_create_arena would request for a fresh
arena sized for an `n`-byte allocation (0 when no well-defined length). -/
def extendLen (t : TState) (n : Nat) : Nat :=
  (createArenaSize t.minallocsize t.pagesize (n + overhead)).getD 0

/-- TAlloc_malloc (lines 246-311).  `pgsz` and `im` feed a lazy
TAlloc_initialize, `em` the possible arena-extension mapping.  Result:
`none` = undefined behavior inside the call; otherwise the new state and
the returned pointer (`none` = NULL). -/
def TAlloc_malloc (s : TState) (n : Nat) (pgsz : Nat) (im em : Option Nat) :
    Option (TState × Option Nat) :=
  let t := afterInit s pgsz im
  if n = 0 then some (t, none)
  else
    match TAlloc_get_accommodating_arena t n em with
    | none => none
    | some (t1, none) => some (t1, none)
    | some (t1, some i) =>
        match t1.arenas[i]? with
        | none => some (t1, none)
        | some a =>
            match mallocInArena a n with
            | none => some (t1, none)
            | some (a', p) =>
                some ({ t1 with arenas := t1.arenas.set i a' }, some p)

/-- TAlloc_ptr_in_arena (lines 163-165). -/
def TAlloc_ptr_in_arena (a : Arena) (p : Nat) : Bool :=
  decide (a.base + arenaHdr ≤ p) && decide (p < a.base + a.allocated)

/-- TAlloc_find_arena (lines 168-172): index of the first arena containing
the pointer. -/
def findArenaIdx : List Arena → Nat → Option Nat
  | [], _ => none
  | a :: tl, p =>
      if TAlloc_ptr_in_arena a p then some 0 else (findArenaIdx tl p).map (· + 1)

/-- TAlloc_adjust_space_for_new_chunk (lines 156-160) on the cached
maximum `m`: raise it to `c.size` when that is larger, never lower it. -/
def adjustMax (m : Nat) (c : Chunk) : Nat :=
  if c.size > m then c.size else m

/-- Splice of TAlloc_free at a fixed insertion point `ia` (lines 205-210):
link `F` in front of `B`, coalesce `F` with its right neighbor, adjust the
maximum, then coalesce `ia` with the (possibly merged) `F` and adjust
again.  Returns the list from `ia` on, and the new cached maximum. -/
def spliceAt (ia : Chunk) (B : List Chunk) (F : Chunk) (m : Nat) :
    List Chunk × Nat :=
  let rc := TAlloc_coalesce F B
  let m1 := adjustMax m rc.1
  let ic := TAlloc_coalesce ia (rc.1 :: rc.2)
  (ic.1 :: ic.2, adjustMax m1 ic.1)

/-- Insertion-point walk of TAlloc_free (lines 201-204): advance
`insert_after` while its successor's address is below `F`'s, then splice. -/
def freeMid (ia : Chunk) (rest : List Chunk) (F : Chunk) (m : Nat) :
    List Chunk × Nat :=
  match rest with
  | [] => spliceAt ia [] F m
  | d :: tl =>
      if d.off < F.off then
        let r := freeMid d tl F m
        (ia :: r.1, r.2)
      else spliceAt ia (d :: tl) F m

/-- Free-list insertion of TAlloc_free (lines 190-211): empty list, new
head (with one defensive coalesce), or address-ordered middle insertion. -/
def freeInsertArena (a : Arena) (F : Chunk) : Arena :=
  match a.free_list with
  | [] => { a with free_list := [F], max_free_space := F.size }
  | c0 :: tl =>
      if F.off < c0.off then
        let rc := TAlloc_coalesce F (c0 :: tl)
        { a with
          free_list := rc.1 :: rc.2
          max_free_space := adjustMax a.max_free_space rc.1 }
      else
        let r := freeMid c0 tl F a.max_free_space
        { a with free_list := r.1, max_free_space := r.2 }

/-- Removal of the first allocated block with header address `o` (the
block's magic is overwritten by the chunk's `next` field once it enters
the free list). -/
def eraseAlloc : List Chunk → Nat → List Chunk
  | [], _ => []
  | c :: tl, o => if c.off = o then tl else c :: eraseAlloc tl o

/-- TAlloc_free (lines 178-217) with `munmap` oracle `u`.  Guards: no-op
when uninitialized, when no arena contains `p`, or when the header just
before `p` does not carry TALLOC_MAGIC (equivalently, `p` is not the user
pointer of a live allocated block).  Then the block is inserted into the
free list, and a fully-free non-head arena is unmapped; on `munmap`
failure the arena stays linked.  `state.arena_tail` is never updated. -/
def TAlloc_free (s : TState) (p : Nat) (u : Bool) : TState :=
  if s.initialized = false then s else
  match findArenaIdx s.arenas p with
  | none => s
  | some i =>
      match s.arenas[i]? with
      | none => s
      | some a =>
          match a.allocs.find? (fun c => c.off = p - chunkHdr) with
          | none => s
          | some F =>
              let a2 := freeInsertArena { a with allocs := eraseAlloc a.allocs F.off } F
              let s1 := { s with arenas := s.arenas.set i a2 }
              if i ≠ 0 ∧ a2.allocated = a2.max_free_space + overhead then
                if u then { s1 with arenas := s1.arenas.eraseIdx i } else s1
              else s1

/-- Strict separation of two chunks in address order: the first one's
header-plus-data range ends strictly before the second one's header
starts (so they neither overlap nor abut). -/
def sepRel (c d : Chunk) : Prop := chunkEnd c < d.off

/-- Two chunks' header-plus-data byte ranges are disjoint (they may abut). -/
def rangeDisj (c d : Chunk) : Prop := chunkEnd c ≤ d.off ∨ chunkEnd d ≤ c.off

/-- A chunk lies inside the usable span of an arena (after the arena
struct, before the arena's end). -/
def inArenaB (a : Arena) (c : Chunk) : Prop :=
  a.base + arenaHdr ≤ c.off ∧ chunkEnd c ≤ a.base + a.allocated

/-- Well-formedness of a single arena: the free list is address-ordered
with strictly separated chunks, the cached `max_free_space` is the true
maximum of the free chunks' sizes (0 when none), and all live chunks are
in bounds and pairwise disjoint. -/
def ArenaWF (a : Arena) : Prop :=
  a.free_list.Pairwise sepRel
  ∧ (∀ c ∈ a.free_list, inArenaB a c)
  ∧ a.max_free_space = maxSizes a.free_list
  ∧ (∀ c ∈ a.allocs, inArenaB a c)
  ∧ a.allocs.Pairwise rangeDisj
  ∧ (∀ c ∈ a.allocs, ∀ d ∈ a.free_list, rangeDisj c d)

/-- Two arenas occupy disjoint address ranges. -/
def arenaDisj (a b : Arena) : Prop :=
  a.base + a.allocated ≤ b.base ∨ b.base + b.allocated ≤ a.base

instance : DecidableRel sepRel := fun c d => by unfold sepRel; infer_instance

instance : DecidableRel rangeDisj := fun c d => by unfold rangeDisj; infer_instance

instance (a : Arena) (c : Chunk) : Decidable (inArenaB a c) := by
  unfold inArenaB; infer_instance

instance : DecidableRel arenaDisj := fun a b => by unfold arenaDisj; infer_instance

/-- Well-formedness of the whole allocator state. -/
def StateWF (s : TState) : Prop :=
  (∀ a ∈ s.arenas, ArenaWF a)
  ∧ s.arenas.Pairwise arenaDisj
  ∧ (s.initialized = false → s.arenas = [])
  ∧ (s.initialized = true → 0 < s.pagesize)

instance (a : Arena) : Decidable (ArenaWF a) := by unfold ArenaWF; infer_instance

instance (s : TState) : Decidable (StateWF s) := by unfold StateWF; infer_instance

/-- Bundle of facts about the result `r` of inserting the freed chunk `F`
into the free-list segment `orig` (which starts at `ia`): the result list
is strictly separated, its chunks start no earlier than `ia`, the new
cached maximum is the old one raised to the result's true maximum, the
result's maximum dominates the old chunks and `F`, and disjointness from /
containment in any ambient region transports from `orig` plus `F` to the
result. -/
def InsOK (orig : List Chunk) (ia F : Chunk) (m : Nat)
    (r : List Chunk × Nat) : Prop :=
  r.1.Pairwise sepRel
  ∧ (∀ c ∈ r.1, ia.off ≤ c.off)
  ∧ r.2 = max m (maxSizes r.1)
  ∧ maxSizes orig ≤ maxSizes r.1
  ∧ F.size ≤ maxSizes r.1
  ∧ (∀ g, rangeDisj g F → (∀ c ∈ orig, rangeDisj g c) → ∀ c ∈ r.1, rangeDisj g c)
  ∧ (∀ lo hi, (∀ c ∈ orig, lo ≤ c.off ∧ chunkEnd c ≤ hi) →
      lo ≤ F.off → chunkEnd F ≤ hi → ∀ c ∈ r.1, lo ≤ c.off ∧ chunkEnd c ≤ hi)

/-- One mapped region is disjoint from every live arena (what a real
`mmap` guarantees for a fresh anonymous mapping). -/
def freshMapB (arenas : List Arena) (addr len : Nat) : Bool :=
  arenas.all (fun a => decide (addr + len ≤ a.base) || decide (a.base + a.allocated ≤ addr))

/-- Freshness of an optional mapping result. -/
def mapFreshB (arenas : List Arena) (o : Option Nat) (len : Nat) : Bool :=
  match o with
  | none => true
  | some addr => freshMapB arenas addr len

/-- Environment assumptions for one TAlloc_malloc call: the page size is
positive and any mapping the Virtual-Memory Provider hands out is disjoint
from the arenas live at the moment of the request. -/
def MallocOK (s : TState) (n pgsz : Nat) (im em : Option Nat) : Prop :=
  0 < pgsz
  ∧ mapFreshB s.arenas im (pgsz * 1000) = true
  ∧ mapFreshB (afterInit s pgsz im).arenas em (extendLen (afterInit s pgsz im) n) = true

instance (s : TState) (n pgsz : Nat) (im em : Option Nat) :
    Decidable (MallocOK s n pgsz im em) := by unfold MallocOK; infer_instance

/-- States reachable from the zero-initialized state through completed
TAlloc_malloc / TAlloc_free calls (malloc steps must complete without
undefined behavior, and mappings handed out by the provider are fresh). -/
inductive Reachable : TState → Prop
  | start : Reachable state0
  | step_malloc {s s' : TState} {res : Option Nat} (n pgsz : Nat) (im em : Option Nat) :
      Reachable s → MallocOK s n pgsz im em →
      TAlloc_malloc s n pgsz im em = some (s', res) → Reachable s'
  | step_free {s : TState} (p : Nat) (u : Bool) :
      Reachable s → Reachable (TAlloc_free s p u)

/-- The live chunks of an arena (free-list chunks and allocated blocks)
exactly tile its usable span `[base + arenaHdr, base + allocated)`: all in
bounds, pairwise disjoint, and their header-plus-data lengths sum to the
span's length (so there is no gap and no overlap). -/
def tilesArena (a : Arena) : Prop :=
  (∀ c ∈ a.free_list ++ a.allocs, inArenaB a c)
  ∧ (a.free_list ++ a.allocs).Pairwise rangeDisj
  ∧ ((a.free_list ++ a.allocs).map (fun c => chunkHdr + c.size)).sum + arenaHdr = a.allocated

instance (a : Arena) : Decidable (tilesArena a) := by unfold tilesArena; infer_instance

/-- Driver for sequences of TAlloc_malloc calls in which every mapping
request of the Virtual-Memory Provider fails (all map oracles `none`).
Each call is (requested size, getpagesize() result); results collect the
returned pointers; `none` overall would mean a call hit undefined
behavior. -/
def runNoMaps : TState → List (Nat × Nat) → Option (TState × List (Option Nat))
  | s, [] => some (s, [])
  | s, (n, pg) :: rest =>
      match TAlloc_malloc s n pg none none with
      | none => none
      | some (s', r) => (runNoMaps s' rest).map (fun x => (x.1, r :: x.2))

/-- Trace for the free-list splice defect: inside the permanent head arena
(page size 4096, mapped at 4096) allocate 100, 200, 300 and 400 bytes,
free the first and third blocks (pointers 4152 and 4484), then allocate
350 bytes.  The first-fit scan for 350 walks past the two small free
chunks, so the scan's trailing pointer is the second free chunk while the
code rewires the head chunk's next link.  Returns the state before the
last call, the state after, and the returned pointer. -/
def traceSplice : Option (TState × TState × Option Nat) :=
  (TAlloc_malloc state0 100 4096 (some 4096) none).bind fun r1 =>
  (TAlloc_malloc r1.1 200 0 none none).bind fun r2 =>
  (TAlloc_malloc r2.1 300 0 none none).bind fun r3 =>
  (TAlloc_malloc r3.1 400 0 none none).bind fun r4 =>
  let s6 := TAlloc_free (TAlloc_free r4.1 4152 true) 4484 true
  (TAlloc_malloc s6 350 0 none none).map fun r7 => (s6, r7.1, r7.2)

/-- The head arena of `traceSplice` just before the 350-byte allocation:
free chunks at 4136 (100 bytes), 4468 (300 bytes) and 5200 (the big tail),
allocated blocks at 4784 (400 bytes) and 4252 (200 bytes). -/
def spliceBefore : Arena :=
  { base := 4096, allocated := 4096000, max_free_space := 4094880,
    free_list := [⟨4136, 100⟩, ⟨4468, 300⟩, ⟨5200, 4094880⟩],
    allocs := [⟨4784, 400⟩, ⟨4252, 200⟩] }

/-- The head arena of `traceSplice` after the 350-byte allocation: the
consumed chunk was the one at 5200 (split remainder at 5566), but the free
chunk at 4468 has been dropped from the list as well — its 316 bytes are
now in no live chunk. -/
def spliceAfter : Arena :=
  { base := 4096, allocated := 4096000, max_free_space := 4094514,
    free_list := [⟨4136, 100⟩, ⟨5566, 4094514⟩],
    allocs := [⟨5200, 350⟩, ⟨4784, 400⟩, ⟨4252, 200⟩] }

/-- Full allocator state before the 350-byte allocation of
`traceSplice`. -/
def spliceStateBefore : TState :=
  { arenas := [spliceBefore], arena_tail := some 4096, minallocsize := 4096000,
    pagesize := 4096, initialized := true }

/-- Full allocator state after the 350-byte allocation of `traceSplice`. -/
def spliceStateAfter : TState :=
  { arenas := [spliceAfter], arena_tail := some 4096, minallocsize := 4096000,
    pagesize := 4096, initialized := true }

/-- Second arena of `twoArenaState`: mapped at 8388608, holding one
allocated block (pointer 8388664) and a 4079-byte tail free chunk. -/
def arenaB : Arena :=
  { base := 8388608, allocated := 4100096, max_free_space := 4079,
    free_list := [⟨12484609, 4079⟩], allocs := [⟨8388648, 4095945⟩] }

/-- State with the permanent head arena plus `arenaB`: the state reached
by `TAlloc_malloc state0 4095945 4096 (some 4096) (some 8388608)`. -/
def twoArenaState : TState :=
  { arenas :=
      [{ base := 4096, allocated := 4096000, max_free_space := 4095944,
         free_list := [⟨4136, 4095944⟩], allocs := [] },
       arenaB],
    arena_tail := some 8388608, minallocsize := 4096000, pagesize := 4096,
    initialized := true }

/-- Trace for the arena-release round-trip counterexample.  Two big
allocations create arenas at 8388608 and 16777216; the first is freed with
a failing `munmap`, leaving a fully-free middle arena.  Then the claim's
triple runs: allocate 4095946 (lands in the empty middle arena, pointer
8388664), deallocate it (the arena is now released, successfully), and
allocate 4095946 again (a fresh arena at 33554432 must be mapped).
Returns the pointer of the triple's first allocation and of its
re-allocation. -/
def traceRelease : Option (Option Nat × Option Nat) :=
  (TAlloc_malloc state0 4095945 4096 (some 4096) (some 8388608)).bind fun r1 =>
  (TAlloc_malloc r1.1 4095945 0 none (some 16777216)).bind fun r2 =>
  let s3 := TAlloc_free r2.1 8388664 false
  (TAlloc_malloc s3 4095946 0 none none).bind fun r4 =>
  let s5 := TAlloc_free r4.1 (r4.2.getD 0) true
  (TAlloc_malloc s5 4095946 0 none (some 33554432)).map fun r6 => (r4.2, r6.2)

/-- No two chunks of a list are mutually adjacent in address space: one
chunk's end address never equals another's start address. -/
def noAdjacent (l : List Chunk) : Prop :=
  l.Pairwise (fun c d => chunkEnd c ≠ d.off ∧ chunkEnd d ≠ c.off)

instance (l : List Chunk) : Decidable (noAdjacent l) := by
  unfold noAdjacent; infer_instance

/-- States along the example trace of `traceSplice`, used to witness the
invariant theorems on concrete reachable states. -/
def wit1 : TState :=
  ((TAlloc_malloc state0 100 4096 (some 4096) none).getD (state0, none)).1

/-- Second state of the witness trace. -/
def wit2 : TState := ((TAlloc_malloc wit1 200 0 none none).getD (state0, none)).1

/-- Third state of the witness trace. -/
def wit3 : TState := ((TAlloc_malloc wit2 300 0 none none).getD (state0, none)).1

/-- Fourth state of the witness trace. -/
def wit4 : TState := ((TAlloc_malloc wit3 400 0 none none).getD (state0, none)).1

/-- Fifth state of the witness trace (first block freed). -/
def wit5 : TState := TAlloc_free wit4 4152 true

/-- Sixth state of the witness trace (third block freed). -/
def wit6 : TState := TAlloc_free wit5 4484 true

/-- Final state of the witness trace (the 350-byte allocation). -/
def wit7 : TState := ((TAlloc_malloc wit6 350 0 none none).getD (state0, none)).1

/-- The head arena of the witness trace's final state. -/
def witArena : Arena := wit7.arenas.getD 0 (TAlloc_init_arena 0 0)

/-- maxSizes of the empty list. -/
theorem maxSizes_nil : maxSizes [] = 0 := rfl

/-- maxSizes unfolds on cons. -/
theorem maxSizes_cons (c : Chunk) (l : List Chunk) :
    maxSizes (c :: l) = max c.size (maxSizes l) := rfl

/-- maxSizes distributes over append as a maximum. -/
theorem maxSizes_append (l1 l2 : List Chunk) :
    maxSizes (l1 ++ l2) = max (maxSizes l1) (maxSizes l2) := by
  induction l1 with
  | nil => simp [maxSizes_nil, maxSizes_cons]
  | cons c tl ih =>
      simp only [List.cons_append, maxSizes_cons, ih]
      omega

/-- Every member's size is bounded by maxSizes. -/
theorem le_maxSizes_of_mem {c : Chunk} {l : List Chunk} (h : c ∈ l) :
    c.size ≤ maxSizes l := by
  induction l with
  | nil => cases h
  | cons d tl ih =>
      rw [maxSizes_cons]
      rcases List.mem_cons.mp h with rfl | h
      · omega
      · have := ih h
        omega

/-- maxSizes is the least upper bound of the member sizes. -/
theorem maxSizes_le {l : List Chunk} {b : Nat} (h : ∀ c ∈ l, c.size ≤ b) :
    maxSizes l ≤ b := by
  induction l with
  | nil => simp [maxSizes_nil]
  | cons d tl ih =>
      rw [maxSizes_cons]
      have h1 := h d (List.mem_cons_self d tl)
      have h2 := ih (fun c hc => h c (List.mem_cons_of_mem d hc))
      omega

/-- The C-shaped running-maximum fold computes maxSizes. -/
theorem foldl_max_eq (a : Nat) (l : List Chunk) :
    l.foldl (fun m d => if d.size > m then d.size else m) a = max a (maxSizes l) := by
  induction l generalizing a with
  | nil => simp [maxSizes_nil]
  | cons c tl ih =>
      simp only [List.foldl_cons, maxSizes_cons, ih]
      have : (if c.size > a then c.size else a) = max a c.size := by
        split <;> omega
      rw [this]
      omega

/-- The rescan loop of TAlloc_malloc computes the true maximum. -/
theorem listMaxSizes_eq (l : List Chunk) : listMaxSizes l = maxSizes l := by
  cases l with
  | nil => rfl
  | cons c tl =>
      show tl.foldl (fun m d => if d.size > m then d.size else m) c.size
        = maxSizes (c :: tl)
      rw [foldl_max_eq, maxSizes_cons]

/-- TAlloc_adjust_space_for_new_chunk computes a maximum. -/
theorem adjustMax_eq (m : Nat) (c : Chunk) : adjustMax m c = max m c.size := by
  unfold adjustMax
  split <;> omega

/-- Range disjointness is symmetric. -/
theorem rangeDisj_symm {c d : Chunk} (h : rangeDisj c d) : rangeDisj d c := h.symm

/-- A chunk whose range sits inside another chunk's range inherits
disjointness from it. -/
theorem rangeDisj_of_sub {g c c' : Chunk} (h : rangeDisj g c)
    (h1 : c.off ≤ c'.off) (h2 : chunkEnd c' ≤ chunkEnd c) : rangeDisj g c' := by
  unfold rangeDisj chunkEnd at *
  omega

/-- Disjointness with both halves of an exact merge gives disjointness
with the merged chunk. -/
theorem rangeDisj_merge {g c d : Chunk} (habut : d.off = chunkEnd c)
    (h1 : rangeDisj g c) (h2 : rangeDisj g d) :
    rangeDisj g ⟨c.off, c.size + chunkHdr + d.size⟩ := by
  have hb : chunkHdr = 16 := rfl
  unfold rangeDisj chunkEnd at *
  simp only at *
  omega

/-- The first-fit scan succeeds exactly on a decomposition into a
too-small prefix, the first fitting chunk, and the rest. -/
theorem splitScan_spec {l : List Chunk} {n : Nat} {pre : List Chunk}
    {h : Chunk} {post : List Chunk}
    (he : splitScan l n = some (pre, h, post)) :
    l = pre ++ h :: post ∧ (∀ c ∈ pre, c.size < n) ∧ n ≤ h.size := by
  induction l generalizing pre h post with
  | nil => cases he
  | cons c tl ih =>
      unfold splitScan at he
      by_cases hc : c.size < n
      · rw [if_pos hc] at he
        obtain ⟨⟨y1, y2, y3⟩, hy, he2⟩ := Option.map_eq_some'.mp he
        simp only [Prod.mk.injEq] at he2
        obtain ⟨rfl, rfl, rfl⟩ := he2
        obtain ⟨hl, hsmall, hfit⟩ := ih hy
        refine ⟨by rw [List.cons_append, ← hl], ?_, hfit⟩
        intro d hd
        rcases List.mem_cons.mp hd with rfl | hd
        · exact hc
        · exact hsmall d hd
      · rw [if_neg hc] at he
        injection he with he
        simp only [Prod.mk.injEq] at he
        obtain ⟨rfl, rfl, rfl⟩ := he
        exact ⟨rfl, by simp, by omega⟩

/-- Coalesce does nothing on an empty tail. -/
theorem coalesce_nil (c : Chunk) : TAlloc_coalesce c [] = (c, []) := rfl

/-- Coalesce does nothing when the next chunk does not start at the
current chunk's end. -/
theorem coalesce_no {c d : Chunk} (tl : List Chunk) (h : d.off ≠ chunkEnd c) :
    TAlloc_coalesce c (d :: tl) = (c, d :: tl) := by
  show (if d.off = chunkEnd c
        then ((⟨c.off, c.size + chunkHdr + d.size⟩ : Chunk), tl)
        else (c, d :: tl)) = (c, d :: tl)
  rw [if_neg h]

/-- Coalesce merges an exactly adjacent next chunk, absorbing its header. -/
theorem coalesce_yes {c d : Chunk} (tl : List Chunk) (h : d.off = chunkEnd c) :
    TAlloc_coalesce c (d :: tl) = (⟨c.off, c.size + chunkHdr + d.size⟩, tl) := by
  show (if d.off = chunkEnd c
        then ((⟨c.off, c.size + chunkHdr + d.size⟩ : Chunk), tl)
        else (c, d :: tl)) = (⟨c.off, c.size + chunkHdr + d.size⟩, tl)
  rw [if_pos h]

/-- Complete characterization of a successful in-arena allocation on a
well-formed free list: the first-fit decomposition, the returned pointer,
the resulting free list (including the head-rewiring splice of lines
291-292), the stamped block, and correctness of the resulting cached
maximum. -/
theorem mallocInArena_spec {a a' : Arena} {n p : Nat}
    (hsep : a.free_list.Pairwise sepRel)
    (hmax : a.max_free_space = maxSizes a.free_list)
    (heq : mallocInArena a n = some (a', p)) :
    ∃ pre h post,
      a.free_list = pre ++ h :: post
      ∧ (∀ c ∈ pre, c.size < n) ∧ n ≤ h.size
      ∧ p = h.off + chunkHdr
      ∧ a'.base = a.base ∧ a'.allocated = a.allocated
      ∧ a'.max_free_space = maxSizes a'.free_list
      ∧ ((chunkHdr < h.size - n
            ∧ a'.free_list
                = spliceList pre (⟨h.off + chunkHdr + n, h.size - n - chunkHdr⟩ :: post)
            ∧ a'.allocs = ⟨h.off, n⟩ :: a.allocs)
         ∨ (h.size - n ≤ chunkHdr
            ∧ a'.free_list = spliceList pre post
            ∧ a'.allocs = ⟨h.off, h.size⟩ :: a.allocs)) := by
  unfold mallocInArena at heq
  cases hscan : splitScan a.free_list n with
  | none => rw [hscan] at heq; cases heq
  | some y =>
      obtain ⟨pre, h, post⟩ := y
      rw [hscan] at heq
      dsimp only at heq
      obtain ⟨hl, hsmall, hfit⟩ := splitScan_spec hscan
      have hsep2 : (pre ++ h :: post).Pairwise sepRel := by rw [← hl]; exact hsep
      have hHpost : ∀ d ∈ post, sepRel h d := by
        intro d hd
        exact (List.pairwise_cons.mp (List.pairwise_append.mp hsep2).2.1).1 d hd
      have hpre_le : maxSizes pre ≤ h.size :=
        maxSizes_le (fun c hc => le_of_lt (lt_of_le_of_lt' hfit (hsmall c hc)))
      have hM : a.max_free_space = max (maxSizes pre) (max h.size (maxSizes post)) := by
        rw [hmax, hl, maxSizes_append, maxSizes_cons]
      refine ⟨pre, h, post, hl, hsmall, hfit, ?_⟩
      by_cases hsplit : chunkHdr < h.size - n
      · rw [if_pos hsplit] at heq
        have hr0end : chunkEnd (⟨h.off + chunkHdr + n, h.size - n - chunkHdr⟩ : Chunk)
            = chunkEnd h := by
          unfold chunkEnd
          simp only
          omega
        have hco : TAlloc_coalesce ⟨h.off + chunkHdr + n, h.size - n - chunkHdr⟩ post
            = (⟨h.off + chunkHdr + n, h.size - n - chunkHdr⟩, post) := by
          cases post with
          | nil => exact coalesce_nil _
          | cons d tl =>
              apply coalesce_no
              have := hHpost d (List.mem_cons_self d tl)
              unfold sepRel at this
              omega
        rw [hco] at heq
        dsimp only at heq
        have hrs : (decide ((h.size - n - chunkHdr : Nat) < h.size)) = true := by
          have hb : chunkHdr = 16 := rfl
          apply decide_eq_true
          omega
        rw [hrs, Bool.and_true] at heq
        injection heq with heq
        simp only [Prod.mk.injEq] at heq
        obtain ⟨ha', hp⟩ := heq
        subst ha'
        refine ⟨hp.symm, rfl, rfl, ?_, Or.inl ⟨hsplit, rfl, rfl⟩⟩
        dsimp only
        by_cases hA : a.max_free_space ≤ h.size
        · simp only [decide_eq_true hA, if_true]
          exact listMaxSizes_eq _
        · have hA' : (decide (a.max_free_space ≤ h.size)) = false :=
            decide_eq_false hA
          simp only [hA', Bool.false_eq_true, if_false]
          have hb : chunkHdr = 16 := rfl
          have hMpost : a.max_free_space = maxSizes post := by omega
          have hm1 : (if a.max_free_space < (h.size - n - chunkHdr : Nat)
              then (h.size - n - chunkHdr : Nat) else a.max_free_space)
              = a.max_free_space := by
            rw [if_neg]
            omega
          rw [hm1]
          cases pre with
          | nil =>
              show a.max_free_space = maxSizes (⟨h.off + chunkHdr + n, h.size - n - chunkHdr⟩ :: post)
              rw [maxSizes_cons]
              simp only
              omega
          | cons c0 pt =>
              show a.max_free_space
                = maxSizes (c0 :: ⟨h.off + chunkHdr + n, h.size - n - chunkHdr⟩ :: post)
              rw [maxSizes_cons, maxSizes_cons]
              simp only
              have hc0 : c0.size ≤ maxSizes (c0 :: pt) :=
                le_maxSizes_of_mem (List.mem_cons_self c0 pt)
              omega
      · rw [if_neg hsplit] at heq
        injection heq with heq
        simp only [Prod.mk.injEq] at heq
        obtain ⟨ha', hp⟩ := heq
        subst ha'
        have hstamp : n + (h.size - n) = h.size := by omega
        refine ⟨hp.symm, rfl, rfl, ?_, Or.inr ⟨by omega, rfl, ?_⟩⟩
        · dsimp only
          by_cases hA : a.max_free_space ≤ h.size
          · simp only [decide_eq_true hA, if_true]
            exact listMaxSizes_eq _
          · have hA' : (decide (a.max_free_space ≤ h.size)) = false :=
              decide_eq_false hA
            simp only [hA', Bool.false_eq_true, if_false]
            have hMpost : a.max_free_space = maxSizes post := by omega
            cases pre with
            | nil =>
                show a.max_free_space = maxSizes post
                exact hMpost
            | cons c0 pt =>
                show a.max_free_space = maxSizes (c0 :: post)
                rw [maxSizes_cons]
                have hc0 : c0.size ≤ maxSizes (c0 :: pt) :=
                  le_maxSizes_of_mem (List.mem_cons_self c0 pt)
                omega
        · dsimp only
          rw [hstamp]

/-- Membership in a spliced list. -/
theorem mem_spliceList {d : Chunk} {pre X : List Chunk}
    (h : d ∈ spliceList pre X) : (∃ pt, pre = d :: pt) ∨ d ∈ X := by
  cases pre with
  | nil => exact Or.inr h
  | cons c0 pt =>
      rcases List.mem_cons.mp h with rfl | h
      · exact Or.inl ⟨pt, rfl⟩
      · exact Or.inr h

/-- inArenaB only depends on the arena's base and allocated size. -/
theorem inArenaB_congr {a a' : Arena} (hb : a'.base = a.base)
    (hal : a'.allocated = a.allocated) (c : Chunk) :
    inArenaB a' c ↔ inArenaB a c := by
  unfold inArenaB
  rw [hb, hal]

/-- A successful in-arena allocation preserves arena well-formedness. -/
theorem mallocInArena_WF {a a' : Arena} {n p : Nat} (hWF : ArenaWF a)
    (heq : mallocInArena a n = some (a', p)) : ArenaWF a' := by
  obtain ⟨hsep, hin, hmax, hain, hadis, hafd⟩ := hWF
  obtain ⟨pre, h, post, hl, hsmall, hfit, hp, hb, hal, hm, hcase⟩ :=
    mallocInArena_spec hsep hmax heq
  have hb16 : chunkHdr = 16 := rfl
  have hsep2 : (pre ++ h :: post).Pairwise sepRel := by rw [← hl]; exact hsep
  obtain ⟨hPpre, hPh, hXX⟩ := List.pairwise_append.mp hsep2
  have hHpost : ∀ d ∈ post, sepRel h d := (List.pairwise_cons.mp hPh).1
  have hPpost : post.Pairwise sepRel := (List.pairwise_cons.mp hPh).2
  have hmemh : h ∈ a.free_list := by rw [hl]; simp
  have hmempre : ∀ c ∈ pre, c ∈ a.free_list := by
    intro c hc; rw [hl]; exact List.mem_append_left _ hc
  have hmempost : ∀ c ∈ post, c ∈ a.free_list := by
    intro c hc; rw [hl]; exact List.mem_append_right _ (List.mem_cons_of_mem _ hc)
  have hinh := hin h hmemh
  rcases hcase with ⟨hsplit, hfl, hallocs⟩ | ⟨hsplit, hfl, hallocs⟩
  · -- split case: remainder r0 carved at h.off + chunkHdr + n
    set r0 : Chunk := ⟨h.off + chunkHdr + n, h.size - n - chunkHdr⟩ with hr0
    have hr0end : chunkEnd r0 = chunkEnd h := by
      unfold chunkEnd
      rw [hr0]
      simp only
      omega
    have hsepr0post : ∀ d ∈ post, sepRel r0 d := by
      intro d hd
      have := hHpost d hd
      unfold sepRel at *
      omega
    have hsepcr0 : ∀ c ∈ pre, sepRel c r0 := by
      intro c hc
      have := hXX c hc h (List.mem_cons_self _ _)
      unfold sepRel at *
      rw [hr0]
      simp only
      omega
    refine ⟨?_, ?_, hm, ?_, ?_, ?_⟩
    · -- pairwise separation of the new free list
      rw [hfl]
      have hP : (r0 :: post).Pairwise sepRel := List.pairwise_cons.mpr ⟨hsepr0post, hPpost⟩
      cases pre with
      | nil => exact hP
      | cons c0 pt =>
          refine List.pairwise_cons.mpr ⟨?_, hP⟩
          intro d hd
          rcases List.mem_cons.mp hd with rfl | hd
          · exact hsepcr0 c0 (List.mem_cons_self _ _)
          · exact hXX c0 (List.mem_cons_self _ _) d (List.mem_cons_of_mem _ hd)
    · -- free chunks stay in bounds
      intro c hc
      rw [inArenaB_congr hb hal]
      rw [hfl] at hc
      rcases mem_spliceList hc with ⟨pt, hpre⟩ | hc
      · exact hin c (hmempre c (by rw [hpre]; exact List.mem_cons_self _ _))
      · rcases List.mem_cons.mp hc with rfl | hc
        · unfold inArenaB at *
          unfold chunkEnd at *
          rw [hr0]
          simp only
          omega
        · exact hin c (hmempost c hc)
    · -- allocated blocks stay in bounds
      intro c hc
      rw [inArenaB_congr hb hal]
      rw [hallocs] at hc
      rcases List.mem_cons.mp hc with rfl | hc
      · unfold inArenaB chunkEnd at *
        simp only
        omega
      · exact hain c hc
    · -- allocated blocks stay pairwise disjoint
      rw [hallocs]
      refine List.pairwise_cons.mpr ⟨?_, hadis⟩
      intro g hg
      have hgh : rangeDisj g h := hafd g hg h hmemh
      have : rangeDisj g ⟨h.off, n⟩ :=
        rangeDisj_of_sub hgh (le_refl _) (by unfold chunkEnd; simp only; omega)
      exact rangeDisj_symm this
    · -- allocated blocks disjoint from free chunks
      intro g hg d hd
      rw [hallocs] at hg
      rw [hfl] at hd
      rcases List.mem_cons.mp hg with rfl | hg
      · -- the freshly stamped block
        rcases mem_spliceList hd with ⟨pt, hpre⟩ | hd
        · have := hXX d (by rw [hpre]; exact List.mem_cons_self _ _) h
            (List.mem_cons_self _ _)
          unfold rangeDisj sepRel chunkEnd at *
          simp only
          omega
        · rcases List.mem_cons.mp hd with rfl | hd
          · unfold rangeDisj chunkEnd
            rw [hr0]
            simp only
            omega
          · have := hHpost d hd
            unfold rangeDisj sepRel chunkEnd at *
            simp only
            omega
      · -- previously allocated blocks
        rcases mem_spliceList hd with ⟨pt, hpre⟩ | hd
        · exact hafd g hg d (hmempre d (by rw [hpre]; exact List.mem_cons_self _ _))
        · rcases List.mem_cons.mp hd with rfl | hd
          · have hgh : rangeDisj g h := hafd g hg h hmemh
            exact rangeDisj_of_sub hgh
              (by rw [hr0]; simp only; omega)
              (by rw [hr0end])
          · exact hafd g hg d (hmempost d hd)
  · -- no-split case: the whole chunk is consumed
    refine ⟨?_, ?_, hm, ?_, ?_, ?_⟩
    · rw [hfl]
      cases pre with
      | nil => exact hPpost
      | cons c0 pt =>
          refine List.pairwise_cons.mpr ⟨?_, hPpost⟩
          intro d hd
          exact hXX c0 (List.mem_cons_self _ _) d (List.mem_cons_of_mem _ hd)
    · intro c hc
      rw [inArenaB_congr hb hal]
      rw [hfl] at hc
      rcases mem_spliceList hc with ⟨pt, hpre⟩ | hc
      · exact hin c (hmempre c (by rw [hpre]; exact List.mem_cons_self _ _))
      · exact hin c (hmempost c hc)
    · intro c hc
      rw [inArenaB_congr hb hal]
      rw [hallocs] at hc
      rcases List.mem_cons.mp hc with rfl | hc
      · unfold inArenaB chunkEnd at *
        simp only
        omega
      · exact hain c hc
    · rw [hallocs]
      refine List.pairwise_cons.mpr ⟨?_, hadis⟩
      intro g hg
      have hgh : rangeDisj g h := hafd g hg h hmemh
      exact rangeDisj_symm (rangeDisj_of_sub hgh (le_refl _) (le_refl _))
    · intro g hg d hd
      rw [hallocs] at hg
      rw [hfl] at hd
      rcases List.mem_cons.mp hg with rfl | hg
      · rcases mem_spliceList hd with ⟨pt, hpre⟩ | hd
        · have := hXX d (by rw [hpre]; exact List.mem_cons_self _ _) h
            (List.mem_cons_self _ _)
          unfold rangeDisj sepRel chunkEnd at *
          simp only
          omega
        · have := hHpost d hd
          unfold rangeDisj sepRel chunkEnd at *
          simp only
          omega
      · rcases mem_spliceList hd with ⟨pt, hpre⟩ | hd
        · exact hafd g hg d (hmempre d (by rw [hpre]; exact List.mem_cons_self _ _))
        · exact hafd g hg d (hmempost d hd)

/-- The two-sided coalescing splice of TAlloc_free (insert `F` after `ia`
in front of `B`, coalesce right then left) satisfies the insertion
contract when invoked at the stop position of the insertion walk. -/
theorem spliceAt_spec (ia F : Chunk) (B : List Chunk) (m : Nat)
    (hsepia : ∀ d ∈ B, sepRel ia d)
    (hsepB : B.Pairwise sepRel)
    (hdF : ∀ c ∈ ia :: B, rangeDisj F c)
    (hlt : ia.off < F.off)
    (hstop : ∀ d tl, B = d :: tl → ¬ d.off < F.off)
    (hm : maxSizes (ia :: B) ≤ m) :
    InsOK (ia :: B) ia F m (spliceAt ia B F m) := by
  have hb16 : chunkHdr = 16 := rfl
  have hiaF : chunkEnd ia ≤ F.off := by
    have h1 := hdF ia (List.mem_cons_self _ _)
    unfold rangeDisj chunkEnd at *
    omega
  cases B with
  | nil =>
      by_cases hml : F.off = chunkEnd ia
      · -- F merges into ia
        have hres : spliceAt ia [] F m =
            ([⟨ia.off, ia.size + chunkHdr + F.size⟩],
             adjustMax (adjustMax m F) ⟨ia.off, ia.size + chunkHdr + F.size⟩) := by
          unfold spliceAt
          rw [coalesce_nil]
          dsimp only
          rw [coalesce_yes _ hml]
        rw [hres]
        unfold InsOK
        dsimp only
        refine ⟨List.pairwise_singleton _ _, ?_, ?_, ?_, ?_, ?_, ?_⟩
        · intro c hc
          rcases List.mem_singleton.mp hc with rfl
          simp
        · simp only [adjustMax_eq, maxSizes_cons, maxSizes_nil]
          omega
        · simp only [maxSizes_cons, maxSizes_nil]
          omega
        · simp only [maxSizes_cons, maxSizes_nil]
          omega
        · intro g hgF hgo c hc
          rcases List.mem_singleton.mp hc with rfl
          exact rangeDisj_merge hml (hgo ia (List.mem_cons_self _ _)) hgF
        · intro lo hi ho hlo hhi c hc
          rcases List.mem_singleton.mp hc with rfl
          have := ho ia (List.mem_cons_self _ _)
          unfold chunkEnd at *
          simp only
          omega
      · -- no merge: result [ia, F]
        have hres : spliceAt ia [] F m =
            ([ia, F], adjustMax (adjustMax m F) ia) := by
          unfold spliceAt
          rw [coalesce_nil]
          dsimp only
          rw [coalesce_no _ hml]
        rw [hres]
        unfold InsOK
        dsimp only
        have hsepiaF : sepRel ia F := by
          unfold sepRel
          omega
        refine ⟨?_, ?_, ?_, ?_, ?_, ?_, ?_⟩
        · exact List.pairwise_cons.mpr
            ⟨fun c hc => by rcases List.mem_singleton.mp hc with rfl; exact hsepiaF,
             List.pairwise_singleton _ _⟩
        · intro c hc
          rcases List.mem_cons.mp hc with rfl | hc
          · exact le_refl _
          · rcases List.mem_singleton.mp hc with rfl
            omega
        · simp only [adjustMax_eq, maxSizes_cons, maxSizes_nil]
          omega
        · simp only [maxSizes_cons, maxSizes_nil]
          omega
        · simp only [maxSizes_cons, maxSizes_nil]
          omega
        · intro g hgF hgo c hc
          rcases List.mem_cons.mp hc with rfl | hc
          · exact hgo c (List.mem_cons_self _ _)
          · rcases List.mem_singleton.mp hc with rfl
            exact hgF
        · intro lo hi ho hlo hhi c hc
          rcases List.mem_cons.mp hc with rfl | hc
          · exact ho c (List.mem_cons_self _ _)
          · rcases List.mem_singleton.mp hc with rfl
            exact ⟨hlo, hhi⟩
  | cons d tl =>
      have hsepd : ∀ e ∈ tl, sepRel d e := (List.pairwise_cons.mp hsepB).1
      have hPtl : tl.Pairwise sepRel := (List.pairwise_cons.mp hsepB).2
      have hiad : sepRel ia d := hsepia d (List.mem_cons_self _ _)
      have hiatl : ∀ e ∈ tl, sepRel ia e :=
        fun e he => hsepia e (List.mem_cons_of_mem _ he)
      have hFd : chunkEnd F ≤ d.off := by
        have h1 := hdF d (List.mem_cons_of_mem _ (List.mem_cons_self _ _))
        have h2 := hstop d tl rfl
        unfold rangeDisj chunkEnd at *
        omega
      have hmia : ia.size ≤ m := by
        have := le_maxSizes_of_mem (List.mem_cons_self ia (d :: tl))
        omega
      have hmd : d.size ≤ m := by
        have := le_maxSizes_of_mem
          (List.mem_cons_of_mem ia (List.mem_cons_self d tl))
        omega
      have hmtl : maxSizes tl ≤ m := by
        rw [maxSizes_cons, maxSizes_cons] at hm
        omega
      have hFd' : F.off + chunkHdr + F.size ≤ d.off := hFd
      have hiaF' : ia.off + chunkHdr + ia.size ≤ F.off := hiaF
      have hiad' : ia.off + chunkHdr + ia.size < d.off := hiad
      have hsepd' : ∀ e ∈ tl, d.off + chunkHdr + d.size < e.off := hsepd
      have hiatl' : ∀ e ∈ tl, ia.off + chunkHdr + ia.size < e.off := hiatl
      by_cases hmf : d.off = chunkEnd F
      · -- F absorbs d
        have hmf' : d.off = F.off + chunkHdr + F.size := hmf
        by_cases hml : F.off = chunkEnd ia
        · -- then ia absorbs the merged chunk
          have hml' : F.off = ia.off + chunkHdr + ia.size := hml
          have hres : spliceAt ia (d :: tl) F m =
              (⟨ia.off, ia.size + chunkHdr + (F.size + chunkHdr + d.size)⟩ :: tl,
               adjustMax (adjustMax m ⟨F.off, F.size + chunkHdr + d.size⟩)
                 ⟨ia.off, ia.size + chunkHdr + (F.size + chunkHdr + d.size)⟩) := by
            unfold spliceAt
            rw [coalesce_yes tl hmf]
            dsimp only
            rw [coalesce_yes tl
              (show (⟨F.off, F.size + chunkHdr + d.size⟩ : Chunk).off = chunkEnd ia from hml)]
          rw [hres]
          unfold InsOK
          dsimp only
          refine ⟨?_, ?_, ?_, ?_, ?_, ?_, ?_⟩
          · refine List.pairwise_cons.mpr ⟨?_, hPtl⟩
            intro e he
            have h1 := hsepd' e he
            show ia.off + chunkHdr + (ia.size + chunkHdr + (F.size + chunkHdr + d.size)) < e.off
            omega
          · intro c hc
            rcases List.mem_cons.mp hc with rfl | hc
            · exact le_refl _
            · have := hiatl' c hc
              omega
          · simp only [adjustMax_eq, maxSizes_cons]
            omega
          · simp only [maxSizes_cons]
            omega
          · simp only [maxSizes_cons]
            omega
          · intro g hgF hgo c hc
            rcases List.mem_cons.mp hc with rfl | hc
            · have h1 := rangeDisj_merge hmf hgF
                (hgo d (List.mem_cons_of_mem _ (List.mem_cons_self _ _)))
              exact rangeDisj_merge
                (show (⟨F.off, F.size + chunkHdr + d.size⟩ : Chunk).off = chunkEnd ia from hml)
                (hgo ia (List.mem_cons_self _ _)) h1
            · exact hgo c (List.mem_cons_of_mem _ (List.mem_cons_of_mem _ hc))
          · intro lo hi ho hlo hhi c hc
            rcases List.mem_cons.mp hc with rfl | hc
            · have h1 := ho ia (List.mem_cons_self _ _)
              have h2 := ho d (List.mem_cons_of_mem _ (List.mem_cons_self _ _))
              unfold chunkEnd at h1 h2
              constructor
              · show lo ≤ ia.off
                omega
              · show ia.off + chunkHdr + (ia.size + chunkHdr + (F.size + chunkHdr + d.size)) ≤ hi
                omega
            · exact ho c (List.mem_cons_of_mem _ (List.mem_cons_of_mem _ hc))
        · -- left chunk does not abut: result ia :: merged :: tl
          have hres : spliceAt ia (d :: tl) F m =
              (ia :: ⟨F.off, F.size + chunkHdr + d.size⟩ :: tl,
               adjustMax (adjustMax m ⟨F.off, F.size + chunkHdr + d.size⟩) ia) := by
            unfold spliceAt
            rw [coalesce_yes tl hmf]
            dsimp only
            rw [coalesce_no tl
              (show (⟨F.off, F.size + chunkHdr + d.size⟩ : Chunk).off ≠ chunkEnd ia from hml)]
          rw [hres]
          unfold InsOK
          dsimp only
          have hml2 : ¬ F.off = ia.off + chunkHdr + ia.size := hml
          refine ⟨?_, ?_, ?_, ?_, ?_, ?_, ?_⟩
          · refine List.pairwise_cons.mpr ⟨?_, List.pairwise_cons.mpr ⟨?_, hPtl⟩⟩
            · intro e he
              rcases List.mem_cons.mp he with rfl | he
              · show ia.off + chunkHdr + ia.size < F.off
                omega
              · have := hiatl' e he
                show ia.off + chunkHdr + ia.size < e.off
                omega
            · intro e he
              have h1 := hsepd' e he
              show F.off + chunkHdr + (F.size + chunkHdr + d.size) < e.off
              omega
          · intro c hc
            rcases List.mem_cons.mp hc with rfl | hc
            · exact le_refl _
            · rcases List.mem_cons.mp hc with rfl | hc
              · show ia.off ≤ F.off
                omega
              · have := hiatl' c hc
                omega
          · simp only [adjustMax_eq, maxSizes_cons]
            omega
          · simp only [maxSizes_cons]
            omega
          · simp only [maxSizes_cons]
            omega
          · intro g hgF hgo c hc
            rcases List.mem_cons.mp hc with rfl | hc
            · exact hgo c (List.mem_cons_self _ _)
            · rcases List.mem_cons.mp hc with rfl | hc
              · exact rangeDisj_merge hmf hgF
                  (hgo d (List.mem_cons_of_mem _ (List.mem_cons_self _ _)))
              · exact hgo c (List.mem_cons_of_mem _ (List.mem_cons_of_mem _ hc))
          · intro lo hi ho hlo hhi c hc
            rcases List.mem_cons.mp hc with rfl | hc
            · exact ho c (List.mem_cons_self _ _)
            · rcases List.mem_cons.mp hc with rfl | hc
              · have h2 := ho d (List.mem_cons_of_mem _ (List.mem_cons_self _ _))
                unfold chunkEnd at h2
                constructor
                · show lo ≤ F.off
                  omega
                · show F.off + chunkHdr + (F.size + chunkHdr + d.size) ≤ hi
                  omega
              · exact ho c (List.mem_cons_of_mem _ (List.mem_cons_of_mem _ hc))
      · -- F does not absorb d
        have hmf2 : ¬ d.off = F.off + chunkHdr + F.size := hmf
        by_cases hml : F.off = chunkEnd ia
        · -- ia absorbs F: result merged :: d :: tl
          have hml' : F.off = ia.off + chunkHdr + ia.size := hml
          have hres : spliceAt ia (d :: tl) F m =
              (⟨ia.off, ia.size + chunkHdr + F.size⟩ :: d :: tl,
               adjustMax (adjustMax m F) ⟨ia.off, ia.size + chunkHdr + F.size⟩) := by
            unfold spliceAt
            rw [coalesce_no tl hmf]
            dsimp only
            rw [coalesce_yes (d :: tl) (show F.off = chunkEnd ia from hml)]
          rw [hres]
          unfold InsOK
          dsimp only
          refine ⟨?_, ?_, ?_, ?_, ?_, ?_, ?_⟩
          · refine List.pairwise_cons.mpr ⟨?_, hsepB⟩
            intro e he
            rcases List.mem_cons.mp he with rfl | he
            · show ia.off + chunkHdr + (ia.size + chunkHdr + F.size) < e.off
              omega
            · have := hsepd' e he
              show ia.off + chunkHdr + (ia.size + chunkHdr + F.size) < e.off
              omega
          · intro c hc
            rcases List.mem_cons.mp hc with rfl | hc
            · exact le_refl _
            · rcases List.mem_cons.mp hc with rfl | hc
              · omega
              · have := hiatl' c hc
                omega
          · simp only [adjustMax_eq, maxSizes_cons]
            omega
          · simp only [maxSizes_cons]
            omega
          · simp only [maxSizes_cons]
            omega
          · intro g hgF hgo c hc
            rcases List.mem_cons.mp hc with rfl | hc
            · exact rangeDisj_merge (show F.off = chunkEnd ia from hml)
                (hgo ia (List.mem_cons_self _ _)) hgF
            · exact hgo c (List.mem_cons_of_mem _ hc)
          · intro lo hi ho hlo hhi c hc
            rcases List.mem_cons.mp hc with rfl | hc
            · have h1 := ho ia (List.mem_cons_self _ _)
              have hhi' : F.off + chunkHdr + F.size ≤ hi := hhi
              unfold chunkEnd at h1
              constructor
              · show lo ≤ ia.off
                omega
              · show ia.off + chunkHdr + (ia.size + chunkHdr + F.size) ≤ hi
                omega
            · exact ho c (List.mem_cons_of_mem _ hc)
        · -- no merge at all: result ia :: F :: d :: tl
          have hml2 : ¬ F.off = ia.off + chunkHdr + ia.size := hml
          have hres : spliceAt ia (d :: tl) F m =
              (ia :: F :: d :: tl, adjustMax (adjustMax m F) ia) := by
            unfold spliceAt
            rw [coalesce_no tl hmf]
            dsimp only
            rw [coalesce_no (d :: tl) (show F.off ≠ chunkEnd ia from hml)]
          rw [hres]
          unfold InsOK
          dsimp only
          refine ⟨?_, ?_, ?_, ?_, ?_, ?_, ?_⟩
          · refine List.pairwise_cons.mpr ⟨?_, List.pairwise_cons.mpr ⟨?_, hsepB⟩⟩
            · intro e he
              rcases List.mem_cons.mp he with rfl | he
              · show ia.off + chunkHdr + ia.size < e.off
                omega
              · rcases List.mem_cons.mp he with rfl | he
                · exact hiad
                · exact hiatl e he
            · intro e he
              rcases List.mem_cons.mp he with rfl | he
              · show F.off + chunkHdr + F.size < e.off
                omega
              · have := hsepd' e he
                show F.off + chunkHdr + F.size < e.off
                omega
          · intro c hc
            rcases List.mem_cons.mp hc with rfl | hc
            · exact le_refl _
            · rcases List.mem_cons.mp hc with rfl | hc
              · omega
              · rcases List.mem_cons.mp hc with rfl | hc
                · omega
                · have := hiatl' c hc
                  omega
          · simp only [adjustMax_eq, maxSizes_cons]
            omega
          · simp only [maxSizes_cons]
            omega
          · simp only [maxSizes_cons]
            omega
          · intro g hgF hgo c hc
            rcases List.mem_cons.mp hc with rfl | hc
            · exact hgo c (List.mem_cons_self _ _)
            · rcases List.mem_cons.mp hc with rfl | hc
              · exact hgF
              · exact hgo c (List.mem_cons_of_mem _ hc)
          · intro lo hi ho hlo hhi c hc
            rcases List.mem_cons.mp hc with rfl | hc
            · exact ho c (List.mem_cons_self _ _)
            · rcases List.mem_cons.mp hc with rfl | hc
              · exact ⟨hlo, hhi⟩
              · exact ho c (List.mem_cons_of_mem _ hc)

/-- The insertion-point walk of TAlloc_free satisfies the insertion
contract on any strictly separated free-list segment whose head lies
before the freed chunk. -/
theorem freeMid_spec (F : Chunk) (rest : List Chunk) :
    ∀ (ia : Chunk) (m : Nat),
    (ia :: rest).Pairwise sepRel →
    (∀ c ∈ ia :: rest, rangeDisj F c) →
    ia.off < F.off →
    maxSizes (ia :: rest) ≤ m →
    InsOK (ia :: rest) ia F m (freeMid ia rest F m) := by
  induction rest with
  | nil =>
      intro ia m hsep hdF hlt hm
      show InsOK [ia] ia F m (spliceAt ia [] F m)
      exact spliceAt_spec ia F [] m (by simp) (by simp) hdF hlt
        (by intro d tl h; cases h) hm
  | cons d tl ih =>
      intro ia m hsep hdF hlt hm
      by_cases hw : d.off < F.off
      · -- walk one step further
        have hres : freeMid ia (d :: tl) F m
            = (ia :: (freeMid d tl F m).1, (freeMid d tl F m).2) := by
          show (if d.off < F.off
                then (ia :: (freeMid d tl F m).1, (freeMid d tl F m).2)
                else spliceAt ia (d :: tl) F m)
              = (ia :: (freeMid d tl F m).1, (freeMid d tl F m).2)
          rw [if_pos hw]
        rw [hres]
        have hsep' : (d :: tl).Pairwise sepRel := (List.pairwise_cons.mp hsep).2
        have hiaall : ∀ e ∈ d :: tl, sepRel ia e := (List.pairwise_cons.mp hsep).1
        have hiad : ia.off + chunkHdr + ia.size < d.off :=
          hiaall d (List.mem_cons_self _ _)
        have hdF' : ∀ c ∈ d :: tl, rangeDisj F c :=
          fun c hc => hdF c (List.mem_cons_of_mem _ hc)
        have hm' : maxSizes (d :: tl) ≤ m := by
          rw [maxSizes_cons] at hm
          omega
        obtain ⟨ih1, ih2, ih3, ih4, ih5, ih6, ih7⟩ := ih d m hsep' hdF' hw hm'
        have hia_le : ia.size ≤ m := by
          have := le_maxSizes_of_mem (List.mem_cons_self ia (d :: tl))
          omega
        unfold InsOK
        dsimp only
        refine ⟨?_, ?_, ?_, ?_, ?_, ?_, ?_⟩
        · refine List.pairwise_cons.mpr ⟨?_, ih1⟩
          intro c hc
          have := ih2 c hc
          show ia.off + chunkHdr + ia.size < c.off
          omega
        · intro c hc
          rcases List.mem_cons.mp hc with rfl | hc
          · exact le_refl _
          · have := ih2 c hc
            omega
        · rw [ih3]
          simp only [maxSizes_cons]
          omega
        · simp only [maxSizes_cons] at ih4 ⊢
          omega
        · simp only [maxSizes_cons]
          omega
        · intro g hgF hgo c hc
          rcases List.mem_cons.mp hc with rfl | hc
          · exact hgo c (List.mem_cons_self _ _)
          · exact ih6 g hgF (fun e he => hgo e (List.mem_cons_of_mem _ he)) c hc
        · intro lo hi ho hlo hhi c hc
          rcases List.mem_cons.mp hc with rfl | hc
          · exact ho c (List.mem_cons_self _ _)
          · exact ih7 lo hi (fun e he => ho e (List.mem_cons_of_mem _ he)) hlo hhi c hc
      · -- stop here and splice
        have hres : freeMid ia (d :: tl) F m = spliceAt ia (d :: tl) F m := by
          show (if d.off < F.off
                then (ia :: (freeMid d tl F m).1, (freeMid d tl F m).2)
                else spliceAt ia (d :: tl) F m)
              = spliceAt ia (d :: tl) F m
          rw [if_neg hw]
        rw [hres]
        refine spliceAt_spec ia F (d :: tl) m (List.pairwise_cons.mp hsep).1
          (List.pairwise_cons.mp hsep).2 hdF hlt ?_ hm
        intro d' tl' h'
        injection h' with h1 h2
        subst h1
        exact hw

/-- The full free-list insertion of TAlloc_free preserves strict
separation and the cached-maximum invariant, keeps chunks inside any
ambient bounds, transports disjointness, and touches no other arena
field. -/
theorem freeInsertArena_spec (a : Arena) (F : Chunk)
    (hsep : a.free_list.Pairwise sepRel)
    (hmax : a.max_free_space = maxSizes a.free_list)
    (hdF : ∀ d ∈ a.free_list, rangeDisj F d) :
    (freeInsertArena a F).free_list.Pairwise sepRel
    ∧ (freeInsertArena a F).max_free_space = maxSizes (freeInsertArena a F).free_list
    ∧ (∀ g, rangeDisj g F → (∀ c ∈ a.free_list, rangeDisj g c) →
        ∀ c ∈ (freeInsertArena a F).free_list, rangeDisj g c)
    ∧ (∀ lo hi, (∀ c ∈ a.free_list, lo ≤ c.off ∧ chunkEnd c ≤ hi) →
        lo ≤ F.off → chunkEnd F ≤ hi →
        ∀ c ∈ (freeInsertArena a F).free_list, lo ≤ c.off ∧ chunkEnd c ≤ hi)
    ∧ (freeInsertArena a F).base = a.base
    ∧ (freeInsertArena a F).allocated = a.allocated
    ∧ (freeInsertArena a F).allocs = a.allocs := by
  have hb16 : chunkHdr = 16 := rfl
  unfold freeInsertArena
  cases hfl : a.free_list with
  | nil =>
      dsimp only
      refine ⟨List.pairwise_singleton _ _, ?_, ?_, ?_, rfl, rfl, rfl⟩
      · simp [maxSizes_cons, maxSizes_nil]
      · intro g hgF hgo c hc
        rcases List.mem_singleton.mp hc with rfl
        exact hgF
      · intro lo hi ho hlo hhi c hc
        rcases List.mem_singleton.mp hc with rfl
        exact ⟨hlo, hhi⟩
  | cons c0 tl =>
      rw [hfl] at hsep hmax hdF
      have hsepc0 : ∀ e ∈ tl, sepRel c0 e := (List.pairwise_cons.mp hsep).1
      have hPtl : tl.Pairwise sepRel := (List.pairwise_cons.mp hsep).2
      have hsepc0' : ∀ e ∈ tl, c0.off + chunkHdr + c0.size < e.off := hsepc0
      have hFc0 := hdF c0 (List.mem_cons_self _ _)
      dsimp only
      by_cases hord : F.off < c0.off
      · -- new head chunk, one defensive right coalesce
        rw [if_pos hord]
        have hFc0' : F.off + chunkHdr + F.size ≤ c0.off := by
          unfold rangeDisj chunkEnd at hFc0
          omega
        by_cases hmf : c0.off = chunkEnd F
        · rw [coalesce_yes tl hmf]
          have hmf' : c0.off = F.off + chunkHdr + F.size := hmf
          dsimp only
          refine ⟨?_, ?_, ?_, ?_, rfl, rfl, rfl⟩
          · refine List.pairwise_cons.mpr ⟨?_, hPtl⟩
            intro e he
            have := hsepc0' e he
            show F.off + chunkHdr + (F.size + chunkHdr + c0.size) < e.off
            omega
          · rw [hmax, adjustMax_eq]
            simp only [maxSizes_cons]
            omega
          · intro g hgF hgo c hc
            rcases List.mem_cons.mp hc with rfl | hc
            · exact rangeDisj_merge hmf hgF (hgo c0 (List.mem_cons_self _ _))
            · exact hgo c (List.mem_cons_of_mem _ hc)
          · intro lo hi ho hlo hhi c hc
            rcases List.mem_cons.mp hc with rfl | hc
            · have h1 := ho c0 (List.mem_cons_self _ _)
              unfold chunkEnd at h1
              refine ⟨hlo, ?_⟩
              show F.off + chunkHdr + (F.size + chunkHdr + c0.size) ≤ hi
              omega
            · exact ho c (List.mem_cons_of_mem _ hc)
        · rw [coalesce_no tl hmf]
          have hmf2 : ¬ c0.off = F.off + chunkHdr + F.size := hmf
          dsimp only
          refine ⟨?_, ?_, ?_, ?_, rfl, rfl, rfl⟩
          · refine List.pairwise_cons.mpr ⟨?_, hsep⟩
            intro e he
            rcases List.mem_cons.mp he with rfl | he
            · show F.off + chunkHdr + F.size < e.off
              omega
            · have := hsepc0' e he
              show F.off + chunkHdr + F.size < e.off
              omega
          · rw [hmax, adjustMax_eq]
            simp only [maxSizes_cons]
            omega
          · intro g hgF hgo c hc
            rcases List.mem_cons.mp hc with rfl | hc
            · exact hgF
            · exact hgo c hc
          · intro lo hi ho hlo hhi c hc
            rcases List.mem_cons.mp hc with rfl | hc
            · exact ⟨hlo, hhi⟩
            · exact ho c hc
      · -- middle insertion via the walk
        rw [if_neg hord]
        have hlt : c0.off < F.off := by
          unfold rangeDisj chunkEnd at hFc0
          omega
        obtain ⟨ih1, ih2, ih3, ih4, ih5, ih6, ih7⟩ :=
          freeMid_spec F tl c0 a.max_free_space hsep hdF hlt (le_of_eq hmax.symm)
        dsimp only
        refine ⟨ih1, ?_, ih6, ih7, rfl, rfl, rfl⟩
        rw [ih3]
        have := hmax
        simp only [maxSizes_cons] at this ih4
        omega

/-- Removing a block by header address yields a sublist. -/
theorem eraseAlloc_sublist (l : List Chunk) (o : Nat) :
    List.Sublist (eraseAlloc l o) l := by
  induction l with
  | nil => exact List.Sublist.refl _
  | cons c tl ih =>
      unfold eraseAlloc
      by_cases hc : c.off = o
      · rw [if_pos hc]
        exact List.sublist_cons_self c tl
      · rw [if_neg hc]
        exact List.Sublist.cons₂ c ih

/-- After removing the block TAlloc_free located by its header address,
every remaining allocated block is disjoint from it. -/
theorem eraseAlloc_disj {l : List Chunk} {o : Nat} {F : Chunk}
    (hdis : l.Pairwise rangeDisj)
    (hfind : l.find? (fun c => c.off = o) = some F) :
    ∀ g ∈ eraseAlloc l o, rangeDisj F g := by
  induction l with
  | nil => cases hfind
  | cons c tl ih =>
      by_cases hc : c.off = o
      · rw [List.find?_cons_of_pos _ (by simp [hc])] at hfind
        injection hfind with hfind
        subst hfind
        unfold eraseAlloc
        rw [if_pos hc]
        exact (List.pairwise_cons.mp hdis).1
      · rw [List.find?_cons_of_neg _ (by simp [hc])] at hfind
        unfold eraseAlloc
        rw [if_neg hc]
        intro g hg
        rcases List.mem_cons.mp hg with rfl | hg
        · exact rangeDisj_symm
            ((List.pairwise_cons.mp hdis).1 F (List.mem_of_find?_eq_some hfind))
        · exact ih (List.pairwise_cons.mp hdis).2 hfind g hg

/-- The complete deallocation update of one arena (remove the block from
the live set, insert it into the free list with coalescing) preserves
arena well-formedness and the arena's identity fields. -/
theorem freeInsertArena_WF (a : Arena) (p : Nat) (F : Chunk) (hWF : ArenaWF a)
    (hfind : a.allocs.find? (fun c => c.off = p - chunkHdr) = some F) :
    ArenaWF (freeInsertArena { a with allocs := eraseAlloc a.allocs F.off } F)
    ∧ (freeInsertArena { a with allocs := eraseAlloc a.allocs F.off } F).base = a.base
    ∧ (freeInsertArena { a with allocs := eraseAlloc a.allocs F.off } F).allocated
        = a.allocated := by
  obtain ⟨hsep, hin, hmax, hain, hadis, hafd⟩ := hWF
  have hFmem : F ∈ a.allocs := List.mem_of_find?_eq_some hfind
  have hdF : ∀ d ∈ a.free_list, rangeDisj F d := fun d hd => hafd F hFmem d hd
  have hFin : inArenaB a F := hain F hFmem
  have hFerase : ∀ g ∈ eraseAlloc a.allocs F.off, rangeDisj F g := by
    have hfind' : a.allocs.find? (fun c => c.off = F.off) = some F := by
      have hoff : F.off = p - chunkHdr := by
        have := List.find?_some hfind
        simpa using this
      rw [← hoff] at hfind
      exact hfind
    exact eraseAlloc_disj hadis hfind'
  obtain ⟨s1, s2, s3, s4, sb, sal, sallocs⟩ :=
    freeInsertArena_spec { a with allocs := eraseAlloc a.allocs F.off } F
      hsep hmax hdF
  refine ⟨⟨s1, ?_, s2, ?_, ?_, ?_⟩, sb, sal⟩
  · -- free chunks in bounds
    intro c hc
    rw [inArenaB_congr sb sal]
    exact s4 (a.base + arenaHdr) (a.base + a.allocated)
      (fun e he => hin e he) hFin.1 hFin.2 c hc
  · -- allocated blocks in bounds
    intro c hc
    rw [inArenaB_congr sb sal]
    rw [sallocs] at hc
    exact hain c ((eraseAlloc_sublist a.allocs F.off).mem hc)
  · -- allocated blocks pairwise disjoint
    rw [sallocs]
    exact hadis.sublist (eraseAlloc_sublist a.allocs F.off)
  · -- allocated blocks disjoint from free chunks
    intro g hg d hd
    rw [sallocs] at hg
    exact s3 g (rangeDisj_symm (hFerase g hg))
      (fun e he => hafd g ((eraseAlloc_sublist a.allocs F.off).mem hg) e he) d hd

/-- Replacing an arena by one with the same base and mapped size keeps
the arena ranges pairwise disjoint. -/
theorem arenas_set_pairwise (l : List Arena) (i : Nat) (x a : Arena)
    (hget : l[i]? = some a) (hb : x.base = a.base) (hal : x.allocated = a.allocated)
    (h : l.Pairwise arenaDisj) : (l.set i x).Pairwise arenaDisj := by
  induction l generalizing i with
  | nil => simpa using h
  | cons c tl ih =>
      cases i with
      | zero =>
          have hac : c = a := by
            simpa using hget
          subst hac
          rw [List.set_cons_zero]
          refine List.pairwise_cons.mpr ⟨?_, (List.pairwise_cons.mp h).2⟩
          intro b hb2
          have := (List.pairwise_cons.mp h).1 b hb2
          unfold arenaDisj at *
          rw [hb, hal]
          exact this
      | succ j =>
          rw [List.set_cons_succ]
          have hget' : tl[j]? = some a := by simpa using hget
          refine List.pairwise_cons.mpr
            ⟨?_, ih j hget' (List.pairwise_cons.mp h).2⟩
          intro b hb2
          rcases List.mem_or_eq_of_mem_set hb2 with hb2 | rfl
          · exact (List.pairwise_cons.mp h).1 b hb2
          · have hmem : a ∈ tl := by
              have := List.getElem?_eq_some.mp hget'
              obtain ⟨hj, hje⟩ := this
              exact hje ▸ List.getElem_mem hj
            have := (List.pairwise_cons.mp h).1 a hmem
            unfold arenaDisj at *
            rw [hb, hal]
            exact this

/-- An element looked up by index is a member. -/
theorem mem_of_getElem? {l : List Arena} {i : Nat} {a : Arena}
    (h : l[i]? = some a) : a ∈ l := by
  obtain ⟨hi, hie⟩ := List.getElem?_eq_some.mp h
  exact hie ▸ List.getElem_mem hi

/-- TAlloc_free preserves state well-formedness. -/
theorem TAlloc_free_WF (s : TState) (p : Nat) (u : Bool) (hWF : StateWF s) :
    StateWF (TAlloc_free s p u) := by
  obtain ⟨hAW, hdisj, hie, hpg⟩ := hWF
  unfold TAlloc_free
  by_cases hinit : s.initialized = false
  · rw [if_pos hinit]
    exact ⟨hAW, hdisj, hie, hpg⟩
  · rw [if_neg hinit]
    have hit : s.initialized = true := by
      revert hinit
      cases s.initialized <;> simp
    cases hf : findArenaIdx s.arenas p with
    | none => exact ⟨hAW, hdisj, hie, hpg⟩
    | some i =>
        dsimp only
        cases hg : s.arenas[i]? with
        | none => exact ⟨hAW, hdisj, hie, hpg⟩
        | some a =>
            dsimp only
            cases hFf : a.allocs.find? (fun c => c.off = p - chunkHdr) with
            | none => exact ⟨hAW, hdisj, hie, hpg⟩
            | some F =>
                dsimp only
                have haWF : ArenaWF a := hAW a (mem_of_getElem? hg)
                obtain ⟨ha2, hb2, hal2⟩ := freeInsertArena_WF a p F haWF hFf
                have hAW1 : ∀ b ∈ s.arenas.set i
                    (freeInsertArena { a with allocs := eraseAlloc a.allocs F.off } F),
                    ArenaWF b := by
                  intro b hb
                  rcases List.mem_or_eq_of_mem_set hb with hb | rfl
                  · exact hAW b hb
                  · exact ha2
                have hdisj1 := arenas_set_pairwise s.arenas i _ a hg hb2 hal2 hdisj
                split_ifs with h1 h2
                · exact ⟨fun b hb => hAW1 b ((List.eraseIdx_sublist _ i).mem hb),
                    hdisj1.sublist (List.eraseIdx_sublist _ i),
                    fun hfalse => absurd hfalse hinit,
                    fun _ => hpg hit⟩
                · exact ⟨hAW1, hdisj1, fun hfalse => absurd hfalse hinit,
                    fun _ => hpg hit⟩
                · exact ⟨hAW1, hdisj1, fun hfalse => absurd hfalse hinit,
                    fun _ => hpg hit⟩

/-- When the arena-size rounding is defined, it never under-allocates. -/
theorem createArenaSize_ge {minalloc pgsz space len : Nat} (hpg : 0 < pgsz)
    (h : createArenaSize minalloc pgsz space = some len) : space ≤ len := by
  unfold createArenaSize at h
  by_cases h1 : space < minalloc
  · rw [if_pos h1] at h
    injection h with h
    omega
  · rw [if_neg h1] at h
    by_cases h2 : space > minalloc
    · rw [if_pos h2] at h
      injection h with h
      subst h
      have hdm := Nat.div_add_mod space pgsz
      by_cases h3 : space % pgsz > 0
      · rw [if_pos h3, Nat.mul_add, Nat.mul_one]
        have := Nat.mod_lt space hpg
        omega
      · rw [if_neg h3, Nat.add_zero]
        omega
    · rw [if_neg h2] at h
      cases h

/-- A freshly initialized arena is well-formed. -/
theorem initArena_WF (base L : Nat) (hL : overhead ≤ L) :
    ArenaWF (TAlloc_init_arena base L) := by
  have hov : overhead = 56 := rfl
  have hb16 : chunkHdr = 16 := rfl
  have ha40 : arenaHdr = 40 := rfl
  unfold TAlloc_init_arena ArenaWF
  refine ⟨List.pairwise_singleton _ _, ?_, ?_, ?_, List.Pairwise.nil, ?_⟩
  · intro c hc
    rcases List.mem_singleton.mp hc with rfl
    unfold inArenaB chunkEnd
    simp only
    omega
  · simp only [maxSizes_cons, maxSizes_nil]
    omega
  · intro c hc
    exact absurd hc (List.not_mem_nil c)
  · intro c hc
    exact absurd hc (List.not_mem_nil c)

/-- Lazy initialization preserves state well-formedness given a positive
page size and a fresh mapping. -/
theorem afterInit_WF (s : TState) (pgsz : Nat) (im : Option Nat)
    (hWF : StateWF s) (hpg : 0 < pgsz)
    (hfresh : mapFreshB s.arenas im (pgsz * 1000) = true) :
    StateWF (afterInit s pgsz im) := by
  unfold afterInit
  by_cases hi : s.initialized = true
  · rw [if_pos hi]
    exact hWF
  · rw [if_neg hi]
    unfold TAlloc_init
    cases im with
    | none =>
        dsimp only
        exact ⟨fun a ha => absurd ha (List.not_mem_nil a), List.Pairwise.nil,
          fun _ => rfl, fun hcontra => absurd hcontra hi⟩
    | some addr =>
        dsimp only
        refine ⟨?_, List.pairwise_singleton _ _, ?_, ?_⟩
        · intro a ha
          rcases List.mem_singleton.mp ha with rfl
          refine initArena_WF addr (pgsz * 1000) ?_
          have hov : overhead = 56 := rfl
          omega
        · intro hcontra
          cases hcontra
        · intro _
          exact hpg

/-- The arena search (with possible extension by a fresh arena) preserves
state well-formedness. -/
theorem getAccom_WF {t : TState} {n : Nat} {em : Option Nat} {t1 : TState}
    {io : Option Nat} (hWF : StateWF t)
    (hfresh : mapFreshB t.arenas em (extendLen t n) = true)
    (h : TAlloc_get_accommodating_arena t n em = some (t1, io)) :
    StateWF t1 := by
  unfold TAlloc_get_accommodating_arena at h
  cases hf : findAccomIdx t.arenas n with
  | some i =>
      rw [hf] at h
      injection h with h
      simp only [Prod.mk.injEq] at h
      obtain ⟨rfl, -⟩ := h
      exact hWF
  | none =>
      rw [hf] at h
      unfold TAlloc_alloc_more_space at h
      cases hca : TAlloc_create_arena t n em with
      | none => rw [hca] at h; cases h
      | some o =>
          cases o with
          | none =>
              rw [hca] at h
              injection h with h
              simp only [Prod.mk.injEq] at h
              obtain ⟨rfl, -⟩ := h
              exact hWF
          | some ar =>
              rw [hca] at h
              -- unpack the creation
              have hshape : ∃ addr len, em = some addr
                  ∧ createArenaSize t.minallocsize t.pagesize (n + overhead) = some len
                  ∧ ar = TAlloc_init_arena addr len := by
                unfold TAlloc_create_arena at hca
                by_cases hw : (n + overhead) % sizeMod < n
                · rw [if_pos hw] at hca
                  cases hca
                · rw [if_neg hw] at hca
                  cases hcs : createArenaSize t.minallocsize t.pagesize (n + overhead) with
                  | none =>
                      rw [hcs] at hca
                      cases em with
                      | none => cases hca
                      | some _ => cases hca
                  | some len =>
                      rw [hcs] at hca
                      cases em with
                      | none => cases hca
                      | some addr =>
                          injection hca with hca
                          injection hca with hca
                          exact ⟨addr, len, rfl, rfl, hca.symm⟩
              obtain ⟨addr, len, hem, hcs, har⟩ := hshape
              cases hat : t.arena_tail with
              | none => rw [hat] at h; cases h
              | some tb =>
                  rw [hat] at h
                  cases hgl : t.arenas.getLast? with
                  | none => rw [hgl] at h; cases h
                  | some last =>
                      rw [hgl] at h
                      dsimp only at h
                      by_cases hlb : last.base = tb
                      · rw [if_pos hlb] at h
                        injection h with h
                        simp only [Prod.mk.injEq] at h
                        obtain ⟨h1, -⟩ := h
                        subst h1
                        -- the appended state is well-formed
                        obtain ⟨hAW, hdisj, hie, hpg⟩ := hWF
                        have hne : t.arenas ≠ [] := by
                          intro hcontra
                          rw [hcontra] at hgl
                          cases hgl
                        have hit : t.initialized = true := by
                          by_contra hx
                          have : t.initialized = false := by
                            revert hx
                            cases t.initialized <;> simp
                          exact hne (hie this)
                        have hpg0 : 0 < t.pagesize := hpg hit
                        have hlen : n + overhead ≤ len := createArenaSize_ge hpg0 hcs
                        have hfresh' : ∀ b ∈ t.arenas,
                            addr + len ≤ b.base ∨ b.base + b.allocated ≤ addr := by
                          intro b hb
                          rw [hem] at hfresh
                          unfold mapFreshB freshMapB at hfresh
                          rw [List.all_eq_true] at hfresh
                          have := hfresh b hb
                          have hel : extendLen t n = len := by
                            unfold extendLen
                            rw [hcs]
                            rfl
                          rw [hel] at this
                          simp only [Bool.or_eq_true, decide_eq_true_eq] at this
                          exact this
                        refine ⟨?_, ?_, ?_, ?_⟩
                        · intro b hb
                          rcases List.mem_append.mp hb with hb | hb
                          · exact hAW b hb
                          · rcases List.mem_singleton.mp hb with rfl
                            rw [har]
                            refine initArena_WF addr len ?_
                            omega
                        · rw [List.pairwise_append]
                          refine ⟨hdisj, List.pairwise_singleton _ _, ?_⟩
                          intro b hb c hc
                          rcases List.mem_singleton.mp hc with rfl
                          have := hfresh' b hb
                          unfold arenaDisj
                          rw [har]
                          unfold TAlloc_init_arena
                          simp only
                          omega
                        · intro hcontra
                          exact absurd hcontra (by rw [hit]; simp)
                        · intro _
                          exact hpg0
                      · rw [if_neg hlb] at h
                        cases h

/-- Base and mapped size are unchanged by an in-arena allocation. -/
theorem mallocInArena_frame {a a' : Arena} {n p : Nat} (hWF : ArenaWF a)
    (heq : mallocInArena a n = some (a', p)) :
    a'.base = a.base ∧ a'.allocated = a.allocated := by
  obtain ⟨hsep, hin, hmax, _, _, _⟩ := hWF
  obtain ⟨pre, h, post, _, _, _, _, hb, hal, _, _⟩ := mallocInArena_spec hsep hmax heq
  exact ⟨hb, hal⟩

/-- TAlloc_malloc preserves state well-formedness on every completed
call with valid environment assumptions. -/
theorem TAlloc_malloc_WF {s s' : TState} {res : Option Nat} {n pgsz : Nat}
    {im em : Option Nat} (hWF : StateWF s) (hok : MallocOK s n pgsz im em)
    (heq : TAlloc_malloc s n pgsz im em = some (s', res)) : StateWF s' := by
  obtain ⟨hpg, hfI, hfE⟩ := hok
  have htWF : StateWF (afterInit s pgsz im) := afterInit_WF s pgsz im hWF hpg hfI
  unfold TAlloc_malloc at heq
  by_cases hn : n = 0
  · rw [if_pos hn] at heq
    injection heq with heq
    simp only [Prod.mk.injEq] at heq
    obtain ⟨rfl, -⟩ := heq
    exact htWF
  · rw [if_neg hn] at heq
    cases hga : TAlloc_get_accommodating_arena (afterInit s pgsz im) n em with
    | none => rw [hga] at heq; cases heq
    | some pr =>
        obtain ⟨t1, io⟩ := pr
        rw [hga] at heq
        have ht1WF : StateWF t1 := getAccom_WF htWF hfE hga
        cases io with
        | none =>
            injection heq with heq
            simp only [Prod.mk.injEq] at heq
            obtain ⟨rfl, -⟩ := heq
            exact ht1WF
        | some i =>
            dsimp only at heq
            cases hget : t1.arenas[i]? with
            | none =>
                rw [hget] at heq
                injection heq with heq
                simp only [Prod.mk.injEq] at heq
                obtain ⟨rfl, -⟩ := heq
                exact ht1WF
            | some a =>
                rw [hget] at heq
                dsimp only at heq
                cases hma : mallocInArena a n with
                | none =>
                    rw [hma] at heq
                    injection heq with heq
                    simp only [Prod.mk.injEq] at heq
                    obtain ⟨rfl, -⟩ := heq
                    exact ht1WF
                | some pr2 =>
                    obtain ⟨a', p⟩ := pr2
                    rw [hma] at heq
                    injection heq with heq
                    simp only [Prod.mk.injEq] at heq
                    obtain ⟨rfl, -⟩ := heq
                    obtain ⟨hAW1, hdisj1, hie1, hpg1⟩ := ht1WF
                    have haWF : ArenaWF a := hAW1 a (mem_of_getElem? hget)
                    obtain ⟨hb, hal⟩ := mallocInArena_frame haWF hma
                    refine ⟨?_, arenas_set_pairwise t1.arenas i a' a hget hb hal hdisj1,
                      ?_, fun hx => hpg1 hx⟩
                    · intro b hb2
                      rcases List.mem_or_eq_of_mem_set hb2 with hb2 | rfl
                      · exact hAW1 b hb2
                      · exact mallocInArena_WF haWF hma
                    · intro hfalse
                      have := hie1 hfalse
                      rw [this]
                      rfl

/-- Every reachable allocator state is well-formed. -/
theorem reachable_WF {s : TState} (h : Reachable s) : StateWF s := by
  induction h with
  | start =>
      exact ⟨fun a ha => absurd ha (List.not_mem_nil a), List.Pairwise.nil,
        fun _ => rfl, fun hx => Bool.noConfusion hx⟩
  | step_malloc n pgsz im em hr hok heq ih => exact TAlloc_malloc_WF ih hok heq
  | step_free p u hr ih => exact TAlloc_free_WF _ p u ih

/-- The witness trace's final state is reachable. -/
theorem wit7_reachable : Reachable wit7 := by
  have e1 : TAlloc_malloc state0 100 4096 (some 4096) none
      = some (wit1, some 4152) := by decide
  have h1 : Reachable wit1 :=
    Reachable.step_malloc 100 4096 (some 4096) none Reachable.start (by decide) e1
  have e2 : TAlloc_malloc wit1 200 4096 none none = some (wit2, some 4268) := by decide
  have h2 : Reachable wit2 :=
    Reachable.step_malloc 200 4096 none none h1 (by decide) e2
  have e3 : TAlloc_malloc wit2 300 4096 none none = some (wit3, some 4484) := by decide
  have h3 : Reachable wit3 :=
    Reachable.step_malloc 300 4096 none none h2 (by decide) e3
  have e4 : TAlloc_malloc wit3 400 4096 none none = some (wit4, some 4800) := by decide
  have h4 : Reachable wit4 :=
    Reachable.step_malloc 400 4096 none none h3 (by decide) e4
  have h5 : Reachable wit5 := Reachable.step_free 4152 true h4
  have h6 : Reachable wit6 := Reachable.step_free 4484 true h5
  have e7 : TAlloc_malloc wit6 350 4096 none none = some (wit7, some 5216) := by decide
  exact Reachable.step_malloc 350 4096 none none h6 (by decide) e7

/-- C4: in every reachable allocator state (i.e. after any sequence of
completed allocate/deallocate calls with fresh provider mappings), every
arena's cached `max_free_space` equals the true maximum of its free
chunks' sizes, 0 when the free list is empty; this holds in particular
after every insertion, split and coalesce, since those only occur inside
the calls. -/
theorem C4_max_free_space_invariant (s : TState) (hs : Reachable s) :
    ∀ a ∈ s.arenas, a.max_free_space = maxSizes a.free_list :=
  fun a ha => ((reachable_WF hs).1 a ha).2.2.1

/-- Witness for C4 at a concrete input: the head arena of the concrete
seven-call trace satisfies the cached-maximum invariant. -/
theorem C4_witness : witArena.max_free_space = maxSizes witArena.free_list :=
  C4_max_free_space_invariant wit7 wit7_reachable witArena (by decide)

/-- C5: in every reachable allocator state, no two chunks of any arena's
free list are mutually adjacent in address space (one's end address never
equals the other's start address). -/
theorem C5_no_adjacent_free_chunks (s : TState) (hs : Reachable s) :
    ∀ a ∈ s.arenas, noAdjacent a.free_list := by
  intro a ha
  have hsep := ((reachable_WF hs).1 a ha).1
  unfold noAdjacent
  refine hsep.imp ?_
  intro c d hcd
  have hb16 : chunkHdr = 16 := rfl
  unfold sepRel chunkEnd at hcd
  constructor <;> (unfold chunkEnd; omega)

/-- Witness for C5 at a concrete input: the head arena of the concrete
seven-call trace has no mutually adjacent free chunks. -/
theorem C5_witness : noAdjacent witArena.free_list :=
  C5_no_adjacent_free_chunks wit7 wit7_reachable witArena (by decide)

/-- The first-fit scan finds the first fitting chunk of a decomposed
list. -/
theorem splitScan_complete {Q : List Chunk} {h2 : Chunk} {post2 : List Chunk}
    {n : Nat} (hq : ∀ c ∈ Q, c.size < n) (hfit : n ≤ h2.size) :
    splitScan (Q ++ h2 :: post2) n = some (Q, h2, post2) := by
  induction Q with
  | nil =>
      show splitScan (h2 :: post2) n = _
      unfold splitScan
      rw [if_neg (by omega)]
  | cons c Q ih =>
      show splitScan (c :: (Q ++ h2 :: post2)) n = _
      unfold splitScan
      rw [if_pos (hq c (List.mem_cons_self _ _))]
      rw [ih (fun d hd => hq d (List.mem_cons_of_mem _ hd))]
      rfl

/-- An arena whose free list decomposes into a too-small prefix and a
fitting chunk serves an allocation at that chunk's data address. -/
theorem mallocInArena_firstfit {ar : Arena} {n : Nat} {Q : List Chunk}
    {h2 : Chunk} {post2 : List Chunk} (hfl : ar.free_list = Q ++ h2 :: post2)
    (hq : ∀ c ∈ Q, c.size < n) (hfit : n ≤ h2.size) :
    ∃ a3, mallocInArena ar n = some (a3, h2.off + chunkHdr) := by
  have hscan : splitScan ar.free_list n = some (Q, h2, post2) := by
    rw [hfl]
    exact splitScan_complete hq hfit
  unfold mallocInArena
  rw [hscan]
  dsimp only
  by_cases hs : chunkHdr < h2.size - n
  · rw [if_pos hs]
    exact ⟨_, rfl⟩
  · rw [if_neg hs]
    exact ⟨_, rfl⟩

/-- Free-list insertion does not change the arena's base or mapped size. -/
theorem freeInsertArena_frame (x : Arena) (F : Chunk) :
    (freeInsertArena x F).base = x.base
    ∧ (freeInsertArena x F).allocated = x.allocated := by
  unfold freeInsertArena
  cases x.free_list with
  | nil => exact ⟨rfl, rfl⟩
  | cons c0 tl =>
      dsimp only
      by_cases hc : F.off < c0.off
      · rw [if_pos hc]
        exact ⟨rfl, rfl⟩
      · rw [if_neg hc]
        exact ⟨rfl, rfl⟩

/-- Introduction rule for the accommodation scan: the first arena with
enough cached space is found. -/
theorem findAccomIdx_intro {l : List Arena} {n i : Nat} {ai : Arena}
    (hget : l[i]? = some ai) (hqual : n ≤ ai.max_free_space)
    (hnot : ∀ j b, j < i → l[j]? = some b → b.max_free_space < n) :
    findAccomIdx l n = some i := by
  induction l generalizing i with
  | nil => cases hget
  | cons a tl ih =>
      cases i with
      | zero =>
          have : a = ai := by simpa using hget
          subst this
          unfold findAccomIdx
          rw [if_pos hqual]
      | succ j =>
          have h0 : a.max_free_space < n := hnot 0 a (Nat.succ_pos j) (by simp)
          unfold findAccomIdx
          rw [if_neg (by omega)]
          rw [ih (by simpa using hget)
            (fun k b hk hb => hnot (k + 1) b (by omega) (by simpa using hb))]
          rfl

/-- Elimination rule for the accommodation scan. -/
theorem findAccomIdx_elim {l : List Arena} {n i : Nat}
    (h : findAccomIdx l n = some i) :
    ∃ ai, l[i]? = some ai ∧ n ≤ ai.max_free_space
      ∧ ∀ j b, j < i → l[j]? = some b → b.max_free_space < n := by
  induction l generalizing i with
  | nil => cases h
  | cons a tl ih =>
      unfold findAccomIdx at h
      by_cases hq : n ≤ a.max_free_space
      · rw [if_pos hq] at h
        injection h with h
        subst h
        exact ⟨a, by simp, hq, fun j b hj => by omega⟩
      · rw [if_neg hq] at h
        cases hrec : findAccomIdx tl n with
        | none => rw [hrec] at h; cases h
        | some k =>
            rw [hrec] at h
            simp only [Option.map_some', Option.some.injEq] at h
            subst h
            obtain ⟨ai, hget, hqual, hnot⟩ := ih hrec
            refine ⟨ai, by simpa using hget, hqual, ?_⟩
            intro j b hj hb
            cases j with
            | zero =>
                have : a = b := by simpa using hb
                subst this
                omega
            | succ j' => exact hnot j' b (by omega) (by simpa using hb)

/-- When the accommodation scan fails, no arena has enough cached
space. -/
theorem findAccomIdx_none {l : List Arena} {n : Nat}
    (h : findAccomIdx l n = none) : ∀ b ∈ l, b.max_free_space < n := by
  induction l with
  | nil => intro b hb; cases hb
  | cons a tl ih =>
      unfold findAccomIdx at h
      by_cases hq : n ≤ a.max_free_space
      · rw [if_pos hq] at h
        cases h
      · rw [if_neg hq] at h
        intro b hb
        rcases List.mem_cons.mp hb with rfl | hb
        · omega
        · cases hrec : findAccomIdx tl n with
          | none => exact ih hrec b hb
          | some k => rw [hrec] at h; cases h

/-- Introduction rule for the arena-locating walk: the first containing
arena is found. -/
theorem findArenaIdx_intro {l : List Arena} {p i : Nat} {ai : Arena}
    (hget : l[i]? = some ai) (hcont : TAlloc_ptr_in_arena ai p = true)
    (hnot : ∀ j b, j < i → l[j]? = some b → TAlloc_ptr_in_arena b p = false) :
    findArenaIdx l p = some i := by
  induction l generalizing i with
  | nil => cases hget
  | cons a tl ih =>
      cases i with
      | zero =>
          have : a = ai := by simpa using hget
          subst this
          unfold findArenaIdx
          rw [if_pos hcont]
      | succ j =>
          have h0 : TAlloc_ptr_in_arena a p = false :=
            hnot 0 a (Nat.succ_pos j) (by simp)
          unfold findArenaIdx
          rw [if_neg (by simp [h0])]
          rw [ih (by simpa using hget)
            (fun k b hk hb => hnot (k + 1) b (by omega) (by simpa using hb))]
          rfl

/-- Erasing the block whose header address heads the list drops exactly
that head. -/
theorem eraseAlloc_cons_self (c : Chunk) (tl : List Chunk) :
    eraseAlloc (c :: tl) c.off = tl := by
  unfold eraseAlloc
  rw [if_pos rfl]

/-- The two-sided splice when the freed chunk merges with its right
neighbor and the insertion point does not absorb the merged chunk. -/
theorem spliceAt_merge_right (ia F r0 : Chunk) (post : List Chunk) (m : Nat)
    (hmf : r0.off = chunkEnd F)
    (hleft : (⟨F.off, F.size + chunkHdr + r0.size⟩ : Chunk).off ≠ chunkEnd ia) :
    spliceAt ia (r0 :: post) F m
      = (ia :: ⟨F.off, F.size + chunkHdr + r0.size⟩ :: post,
         adjustMax (adjustMax m ⟨F.off, F.size + chunkHdr + r0.size⟩) ia) := by
  unfold spliceAt
  rw [coalesce_yes post hmf]
  dsimp only
  rw [coalesce_no post hleft]

/-- The two-sided splice when neither side merges. -/
theorem spliceAt_no_merge (ia F : Chunk) (B : List Chunk) (m : Nat)
    (hright : TAlloc_coalesce F B = (F, B))
    (hleft : F.off ≠ chunkEnd ia) :
    spliceAt ia B F m = (ia :: F :: B, adjustMax (adjustMax m F) ia) := by
  unfold spliceAt
  rw [hright]
  dsimp only
  rw [coalesce_no B hleft]

/-- Free-list insertion into an empty list. -/
theorem freeInsert_nil (x : Arena) (F : Chunk) (hfl : x.free_list = []) :
    freeInsertArena x F
      = { x with free_list := [F], max_free_space := F.size } := by
  unfold freeInsertArena
  rw [hfl]

/-- Free-list insertion in front of the current head. -/
theorem freeInsert_head (x : Arena) (F c0 : Chunk) (tl : List Chunk)
    (hfl : x.free_list = c0 :: tl) (hord : F.off < c0.off) :
    freeInsertArena x F
      = { x with
          free_list :=
            (TAlloc_coalesce F (c0 :: tl)).1 :: (TAlloc_coalesce F (c0 :: tl)).2
          max_free_space :=
            adjustMax x.max_free_space (TAlloc_coalesce F (c0 :: tl)).1 } := by
  unfold freeInsertArena
  rw [hfl]
  dsimp only
  rw [if_pos hord]

/-- Free-list insertion through the middle walk. -/
theorem freeInsert_mid (x : Arena) (F c0 : Chunk) (tl : List Chunk)
    (hfl : x.free_list = c0 :: tl) (hord : ¬ F.off < c0.off) :
    freeInsertArena x F
      = { x with
          free_list := (freeMid c0 tl F x.max_free_space).1
          max_free_space := (freeMid c0 tl F x.max_free_space).2 } := by
  unfold freeInsertArena
  rw [hfl]
  dsimp only
  rw [if_neg hord]

/-- Every arena placed before the one the accommodation step selects has
too little cached space for the request. -/
theorem getAccom_small {t : TState} {n : Nat} {em : Option Nat} {t1 : TState}
    {i : Nat} (h : TAlloc_get_accommodating_arena t n em = some (t1, some i)) :
    ∀ j b, j < i → t1.arenas[j]? = some b → b.max_free_space < n := by
  unfold TAlloc_get_accommodating_arena at h
  cases hf : findAccomIdx t.arenas n with
  | some k =>
      rw [hf] at h
      injection h with h
      simp only [Prod.mk.injEq, Option.some.injEq] at h
      obtain ⟨rfl, rfl⟩ := h
      obtain ⟨ai, hgi, hqi, hni⟩ := findAccomIdx_elim hf
      exact hni
  | none =>
      rw [hf] at h
      have hallsmall := findAccomIdx_none hf
      unfold TAlloc_alloc_more_space at h
      cases hca : TAlloc_create_arena t n em with
      | none => rw [hca] at h; cases h
      | some o =>
          cases o with
          | none =>
              rw [hca] at h
              injection h with h
              simp only [Prod.mk.injEq] at h
              cases h.2
          | some ar =>
              rw [hca] at h
              cases hat : t.arena_tail with
              | none => rw [hat] at h; cases h
              | some tb =>
                  rw [hat] at h
                  cases hgl : t.arenas.getLast? with
                  | none => rw [hgl] at h; cases h
                  | some last =>
                      rw [hgl] at h
                      dsimp only at h
                      by_cases hlb : last.base = tb
                      · rw [if_pos hlb] at h
                        injection h with h
                        simp only [Prod.mk.injEq, Option.some.injEq] at h
                        obtain ⟨rfl, rfl⟩ := h
                        intro j b hj hb
                        have hb' : t.arenas[j]? = some b := by
                          have hja : (t.arenas ++ [ar])[j]? = some b := hb
                          rw [List.getElem?_append_left hj] at hja
                          exact hja
                        exact hallsmall b (mem_of_getElem? hb')
                      · rw [if_neg hlb] at h
                        cases h

/-- After a successful in-arena allocation returning pointer `p`, the
deallocation of `p` locates the stamped block at the list head, restores
the allocated-block list, and produces an arena whose free list offers the
freed span at the same address behind a too-small prefix, with a cached
maximum that accommodates `n` — so an immediate re-allocation of `n` bytes
is served at `p` again. -/
theorem roundtrip_arena {a a' : Arena} {n p : Nat} (hWF : ArenaWF a)
    (hma : mallocInArena a n = some (a', p)) (hn : 0 < n) :
    ∃ F : Chunk,
      a'.allocs.find? (fun c => c.off = p - chunkHdr) = some F
      ∧ eraseAlloc a'.allocs F.off = a.allocs
      ∧ a.base + arenaHdr ≤ p ∧ p < a.base + a.allocated
      ∧ n ≤ (freeInsertArena { a' with allocs := a.allocs } F).max_free_space
      ∧ ∃ a3, mallocInArena (freeInsertArena { a' with allocs := a.allocs } F) n
            = some (a3, p) := by
  have hb16 : chunkHdr = 16 := rfl
  have ha40 : arenaHdr = 40 := rfl
  obtain ⟨pre, h, post, hl, hsmall, hfit, hp, hb, hal, hm, hcase⟩ :=
    mallocInArena_spec hWF.1 hWF.2.2.1 hma
  subst hp
  have hsep2 : (pre ++ h :: post).Pairwise sepRel := by
    rw [← hl]
    exact hWF.1
  have hinh : inArenaB a h := hWF.2.1 h (by
    rw [hl]
    exact List.mem_append_right _ (List.mem_cons_self _ _))
  have hpre_h : ∀ c ∈ pre, chunkEnd c < h.off := fun c hc =>
    (List.pairwise_append.mp hsep2).2.2 c hc h (List.mem_cons_self _ _)
  have h_post : ∀ d ∈ post, chunkEnd h < d.off :=
    fun d hd => (List.pairwise_cons.mp (List.pairwise_append.mp hsep2).2.1).1 d hd
  have hbound1 : a.base + arenaHdr ≤ h.off + chunkHdr := by
    have := hinh.1
    omega
  have hbound2 : h.off + chunkHdr < a.base + a.allocated := by
    have h2 : h.off + chunkHdr + h.size ≤ a.base + a.allocated := hinh.2
    omega
  rcases hcase with ⟨hsplit, hfl, hallocs⟩ | ⟨hnosplit, hfl, hallocs⟩
  · -- split case: the stamped block is ⟨h.off, n⟩, the remainder follows it
    have hr0end : (⟨h.off + chunkHdr + n, h.size - n - chunkHdr⟩ : Chunk).off
        = chunkEnd (⟨h.off, n⟩ : Chunk) := rfl
    cases pre with
    | nil =>
        have hfl1 : ({ a' with allocs := a.allocs } : Arena).free_list
            = ⟨h.off + chunkHdr + n, h.size - n - chunkHdr⟩ :: post := hfl
        have hins : freeInsertArena { a' with allocs := a.allocs } ⟨h.off, n⟩
            = { a' with
                allocs := a.allocs
                free_list := ⟨h.off, n + chunkHdr + (h.size - n - chunkHdr)⟩ :: post
                max_free_space := adjustMax a'.max_free_space
                  ⟨h.off, n + chunkHdr + (h.size - n - chunkHdr)⟩ } := by
          rw [freeInsert_head _ _ _ _ hfl1 (by
            show h.off < h.off + chunkHdr + n
            omega)]
          rw [coalesce_yes post hr0end]
        refine ⟨⟨h.off, n⟩, ?_, ?_, hbound1, hbound2, ?_, ?_⟩
        · rw [hallocs]
          exact List.find?_cons_of_pos _ (decide_eq_true (by
            show h.off = h.off + chunkHdr - chunkHdr
            omega))
        · rw [hallocs]
          exact eraseAlloc_cons_self _ _
        · rw [hins]
          show n ≤ adjustMax a'.max_free_space
            ⟨h.off, n + chunkHdr + (h.size - n - chunkHdr)⟩
          rw [adjustMax_eq]
          show n ≤ max a'.max_free_space (n + chunkHdr + (h.size - n - chunkHdr))
          omega
        · have hq : ∀ c ∈ ([] : List Chunk), c.size < n :=
            fun c hc => absurd hc (List.not_mem_nil c)
          have hfl2 : (freeInsertArena { a' with allocs := a.allocs }
                ⟨h.off, n⟩).free_list
              = [] ++ ⟨h.off, n + chunkHdr + (h.size - n - chunkHdr)⟩ :: post := by
            rw [hins]
            rfl
          have hle : n ≤ (⟨h.off, n + chunkHdr + (h.size - n - chunkHdr)⟩ : Chunk).size := by
            show n ≤ n + chunkHdr + (h.size - n - chunkHdr)
            omega
          have hres := mallocInArena_firstfit hfl2 hq hle
          exact hres
    | cons c0 pt =>
        have hc0h : c0.off + chunkHdr + c0.size < h.off :=
          hpre_h c0 (List.mem_cons_self _ _)
        have hc0small : c0.size < n := hsmall c0 (List.mem_cons_self _ _)
        have hfl1 : ({ a' with allocs := a.allocs } : Arena).free_list
            = c0 :: ⟨h.off + chunkHdr + n, h.size - n - chunkHdr⟩ :: post := hfl
        have hnd : ¬ (⟨h.off + chunkHdr + n, h.size - n - chunkHdr⟩ : Chunk).off
            < (⟨h.off, n⟩ : Chunk).off := by
          show ¬ h.off + chunkHdr + n < h.off
          omega
        have hmid : freeMid c0 (⟨h.off + chunkHdr + n, h.size - n - chunkHdr⟩ :: post)
              ⟨h.off, n⟩ ({ a' with allocs := a.allocs } : Arena).max_free_space
            = spliceAt c0 (⟨h.off + chunkHdr + n, h.size - n - chunkHdr⟩ :: post)
              ⟨h.off, n⟩ a'.max_free_space := by
          unfold freeMid
          rw [if_neg hnd]
        have hsp : spliceAt c0 (⟨h.off + chunkHdr + n, h.size - n - chunkHdr⟩ :: post)
              ⟨h.off, n⟩ a'.max_free_space
            = (c0 :: ⟨h.off, n + chunkHdr + (h.size - n - chunkHdr)⟩ :: post,
               adjustMax (adjustMax a'.max_free_space
                 ⟨h.off, n + chunkHdr + (h.size - n - chunkHdr)⟩) c0) :=
          spliceAt_merge_right c0 ⟨h.off, n⟩ _ post a'.max_free_space hr0end (by
            show ¬ h.off = c0.off + chunkHdr + c0.size
            omega)
        have hins : freeInsertArena { a' with allocs := a.allocs } ⟨h.off, n⟩
            = { a' with
                allocs := a.allocs
                free_list := c0 :: ⟨h.off, n + chunkHdr + (h.size - n - chunkHdr)⟩ :: post
                max_free_space := adjustMax (adjustMax a'.max_free_space
                  ⟨h.off, n + chunkHdr + (h.size - n - chunkHdr)⟩) c0 } := by
          rw [freeInsert_mid _ _ _ _ hfl1 (by
            show ¬ h.off < c0.off
            omega)]
          rw [hmid, hsp]
        refine ⟨⟨h.off, n⟩, ?_, ?_, hbound1, hbound2, ?_, ?_⟩
        · rw [hallocs]
          exact List.find?_cons_of_pos _ (decide_eq_true (by
            show h.off = h.off + chunkHdr - chunkHdr
            omega))
        · rw [hallocs]
          exact eraseAlloc_cons_self _ _
        · rw [hins]
          show n ≤ adjustMax (adjustMax a'.max_free_space
            ⟨h.off, n + chunkHdr + (h.size - n - chunkHdr)⟩) c0
          rw [adjustMax_eq, adjustMax_eq]
          show n ≤ max (max a'.max_free_space
            (n + chunkHdr + (h.size - n - chunkHdr))) c0.size
          omega
        · have hq : ∀ c ∈ [c0], c.size < n := by
            intro c hc
            rcases List.mem_singleton.mp hc with rfl
            exact hc0small
          have hfl2 : (freeInsertArena { a' with allocs := a.allocs }
                ⟨h.off, n⟩).free_list
              = [c0] ++ ⟨h.off, n + chunkHdr + (h.size - n - chunkHdr)⟩ :: post := by
            rw [hins]
            rfl
          have hle : n ≤ (⟨h.off, n + chunkHdr + (h.size - n - chunkHdr)⟩ : Chunk).size := by
            show n ≤ n + chunkHdr + (h.size - n - chunkHdr)
            omega
          have hres := mallocInArena_firstfit hfl2 hq hle
          exact hres
  · -- no-split case: the stamped block is ⟨h.off, h.size⟩
    cases pre with
    | nil =>
        cases post with
        | nil =>
            have hfl1 : ({ a' with allocs := a.allocs } : Arena).free_list = [] := hfl
            have hins := freeInsert_nil { a' with allocs := a.allocs }
              ⟨h.off, h.size⟩ hfl1
            refine ⟨⟨h.off, h.size⟩, ?_, ?_, hbound1, hbound2, ?_, ?_⟩
            · rw [hallocs]
              exact List.find?_cons_of_pos _ (decide_eq_true (by
                show h.off = h.off + chunkHdr - chunkHdr
                omega))
            · rw [hallocs]
              exact eraseAlloc_cons_self _ _
            · rw [hins]
              show n ≤ h.size
              exact hfit
            · have hq : ∀ c ∈ ([] : List Chunk), c.size < n :=
                fun c hc => absurd hc (List.not_mem_nil c)
              have hfl2 : (freeInsertArena { a' with allocs := a.allocs }
                    ⟨h.off, h.size⟩).free_list
                  = [] ++ (⟨h.off, h.size⟩ : Chunk) :: [] := by
                rw [hins]
                rfl
              have hres := mallocInArena_firstfit hfl2 hq hfit
              exact hres
        | cons d tl =>
            have hdpost : h.off + chunkHdr + h.size < d.off :=
              h_post d (List.mem_cons_self _ _)
            have hfl1 : ({ a' with allocs := a.allocs } : Arena).free_list
                = d :: tl := hfl
            have hco : TAlloc_coalesce ⟨h.off, h.size⟩ (d :: tl)
                = (⟨h.off, h.size⟩, d :: tl) :=
              coalesce_no tl (by
                show ¬ d.off = h.off + chunkHdr + h.size
                omega)
            have hins : freeInsertArena { a' with allocs := a.allocs } ⟨h.off, h.size⟩
                = { a' with
                    allocs := a.allocs
                    free_list := ⟨h.off, h.size⟩ :: d :: tl
                    max_free_space :=
                      adjustMax a'.max_free_space ⟨h.off, h.size⟩ } := by
              rw [freeInsert_head _ _ _ _ hfl1 (by
                show h.off < d.off
                omega)]
              rw [hco]
            refine ⟨⟨h.off, h.size⟩, ?_, ?_, hbound1, hbound2, ?_, ?_⟩
            · rw [hallocs]
              exact List.find?_cons_of_pos _ (decide_eq_true (by
                show h.off = h.off + chunkHdr - chunkHdr
                omega))
            · rw [hallocs]
              exact eraseAlloc_cons_self _ _
            · rw [hins]
              show n ≤ adjustMax a'.max_free_space ⟨h.off, h.size⟩
              rw [adjustMax_eq]
              show n ≤ max a'.max_free_space h.size
              omega
            · have hq : ∀ c ∈ ([] : List Chunk), c.size < n :=
                fun c hc => absurd hc (List.not_mem_nil c)
              have hfl2 : (freeInsertArena { a' with allocs := a.allocs }
                    ⟨h.off, h.size⟩).free_list
                  = [] ++ (⟨h.off, h.size⟩ : Chunk) :: d :: tl := by
                rw [hins]
                rfl
              have hres := mallocInArena_firstfit hfl2 hq hfit
              exact hres
    | cons c0 pt =>
        have hc0h : c0.off + chunkHdr + c0.size < h.off :=
          hpre_h c0 (List.mem_cons_self _ _)
        have hc0small : c0.size < n := hsmall c0 (List.mem_cons_self _ _)
        have hordm : ¬ (⟨h.off, h.size⟩ : Chunk).off < c0.off := by
          show ¬ h.off < c0.off
          omega
        cases post with
        | nil =>
            have hfl1 : ({ a' with allocs := a.allocs } : Arena).free_list
                = c0 :: ([] : List Chunk) := hfl
            have hsp : spliceAt c0 [] ⟨h.off, h.size⟩ a'.max_free_space
                = (c0 :: ⟨h.off, h.size⟩ :: [],
                   adjustMax (adjustMax a'.max_free_space ⟨h.off, h.size⟩) c0) :=
              spliceAt_no_merge c0 ⟨h.off, h.size⟩ [] a'.max_free_space
                (coalesce_nil _) (by
                  show ¬ h.off = c0.off + chunkHdr + c0.size
                  omega)
            have hins : freeInsertArena { a' with allocs := a.allocs } ⟨h.off, h.size⟩
                = { a' with
                    allocs := a.allocs
                    free_list := c0 :: ⟨h.off, h.size⟩ :: []
                    max_free_space :=
                      adjustMax (adjustMax a'.max_free_space ⟨h.off, h.size⟩) c0 } := by
              rw [freeInsert_mid _ _ _ _ hfl1 hordm]
              rw [show freeMid c0 [] ⟨h.off, h.size⟩
                    ({ a' with allocs := a.allocs } : Arena).max_free_space
                  = spliceAt c0 [] ⟨h.off, h.size⟩ a'.max_free_space from rfl]
              rw [hsp]
            refine ⟨⟨h.off, h.size⟩, ?_, ?_, hbound1, hbound2, ?_, ?_⟩
            · rw [hallocs]
              exact List.find?_cons_of_pos _ (decide_eq_true (by
                show h.off = h.off + chunkHdr - chunkHdr
                omega))
            · rw [hallocs]
              exact eraseAlloc_cons_self _ _
            · rw [hins]
              show n ≤ adjustMax (adjustMax a'.max_free_space ⟨h.off, h.size⟩) c0
              rw [adjustMax_eq, adjustMax_eq]
              show n ≤ max (max a'.max_free_space h.size) c0.size
              omega
            · have hq : ∀ c ∈ [c0], c.size < n := by
                intro c hc
                rcases List.mem_singleton.mp hc with rfl
                exact hc0small
              have hfl2 : (freeInsertArena { a' with allocs := a.allocs }
                    ⟨h.off, h.size⟩).free_list
                  = [c0] ++ (⟨h.off, h.size⟩ : Chunk) :: [] := by
                rw [hins]
                rfl
              have hres := mallocInArena_firstfit hfl2 hq hfit
              exact hres
        | cons d tl =>
            have hdpost : h.off + chunkHdr + h.size < d.off :=
              h_post d (List.mem_cons_self _ _)
            have hfl1 : ({ a' with allocs := a.allocs } : Arena).free_list
                = c0 :: d :: tl := hfl
            have hnd : ¬ d.off < (⟨h.off, h.size⟩ : Chunk).off := by
              show ¬ d.off < h.off
              omega
            have hmid : freeMid c0 (d :: tl) ⟨h.off, h.size⟩
                  ({ a' with allocs := a.allocs } : Arena).max_free_space
                = spliceAt c0 (d :: tl) ⟨h.off, h.size⟩ a'.max_free_space := by
              unfold freeMid
              rw [if_neg hnd]
            have hsp : spliceAt c0 (d :: tl) ⟨h.off, h.size⟩ a'.max_free_space
                = (c0 :: ⟨h.off, h.size⟩ :: d :: tl,
                   adjustMax (adjustMax a'.max_free_space ⟨h.off, h.size⟩) c0) :=
              spliceAt_no_merge c0 ⟨h.off, h.size⟩ (d :: tl) a'.max_free_space
                (coalesce_no tl (by
                  show ¬ d.off = h.off + chunkHdr + h.size
                  omega)) (by
                  show ¬ h.off = c0.off + chunkHdr + c0.size
                  omega)
            have hins : freeInsertArena { a' with allocs := a.allocs } ⟨h.off, h.size⟩
                = { a' with
                    allocs := a.allocs
                    free_list := c0 :: ⟨h.off, h.size⟩ :: d :: tl
                    max_free_space :=
                      adjustMax (adjustMax a'.max_free_space ⟨h.off, h.size⟩) c0 } := by
              rw [freeInsert_mid _ _ _ _ hfl1 hordm]
              rw [hmid, hsp]
            refine ⟨⟨h.off, h.size⟩, ?_, ?_, hbound1, hbound2, ?_, ?_⟩
            · rw [hallocs]
              exact List.find?_cons_of_pos _ (decide_eq_true (by
                show h.off = h.off + chunkHdr - chunkHdr
                omega))
            · rw [hallocs]
              exact eraseAlloc_cons_self _ _
            · rw [hins]
              show n ≤ adjustMax (adjustMax a'.max_free_space ⟨h.off, h.size⟩) c0
              rw [adjustMax_eq, adjustMax_eq]
              show n ≤ max (max a'.max_free_space h.size) c0.size
              omega
            · have hq : ∀ c ∈ [c0], c.size < n := by
                intro c hc
                rcases List.mem_singleton.mp hc with rfl
                exact hc0small
              have hfl2 : (freeInsertArena { a' with allocs := a.allocs }
                    ⟨h.off, h.size⟩).free_list
                  = [c0] ++ (⟨h.off, h.size⟩ : Chunk) :: d :: tl := by
                rw [hins]
                rfl
              have hres := mallocInArena_firstfit hfl2 hq hfit
              exact hres

/-- C7 (amended): for every well-formed state and every completed
allocate(n) call that returns pointer `p`, if the subsequent
deallocate(p) leaves the arena sequence's length unchanged (the owning
arena is not released back to the system), then an immediate allocate(n)
with no intervening calls returns a pointer equal to `p`. -/
theorem C7_roundtrip_amended (s : TState) (n pgsz : Nat) (im em : Option Nat)
    (s1 : TState) (p : Nat) (u : Bool) (hWF : StateWF s)
    (hok : MallocOK s n pgsz im em)
    (halloc : TAlloc_malloc s n pgsz im em = some (s1, some p))
    (hkeep : (TAlloc_free s1 p u).arenas.length = s1.arenas.length) :
    (TAlloc_malloc (TAlloc_free s1 p u) n 0 none none).map Prod.snd
      = some (some p) := by
  obtain ⟨hpg, hfI, hfE⟩ := hok
  have htWF : StateWF (afterInit s pgsz im) := afterInit_WF s pgsz im hWF hpg hfI
  unfold TAlloc_malloc at halloc
  by_cases hn : n = 0
  · rw [if_pos hn] at halloc
    injection halloc with halloc
    simp only [Prod.mk.injEq] at halloc
    exact Option.noConfusion halloc.2
  · rw [if_neg hn] at halloc
    cases hga : TAlloc_get_accommodating_arena (afterInit s pgsz im) n em with
    | none => rw [hga] at halloc; cases halloc
    | some pr =>
        obtain ⟨t1, io⟩ := pr
        rw [hga] at halloc
        have ht1WF : StateWF t1 := getAccom_WF htWF hfE hga
        cases io with
        | none =>
            injection halloc with halloc
            simp only [Prod.mk.injEq] at halloc
            exact Option.noConfusion halloc.2
        | some i =>
            dsimp only at halloc
            cases hget : t1.arenas[i]? with
            | none =>
                rw [hget] at halloc
                injection halloc with halloc
                simp only [Prod.mk.injEq] at halloc
                exact Option.noConfusion halloc.2
            | some a =>
                rw [hget] at halloc
                dsimp only at halloc
                cases hma : mallocInArena a n with
                | none =>
                    rw [hma] at halloc
                    injection halloc with halloc
                    simp only [Prod.mk.injEq] at halloc
                    exact Option.noConfusion halloc.2
                | some pr2 =>
                    obtain ⟨a', q⟩ := pr2
                    rw [hma] at halloc
                    injection halloc with halloc
                    simp only [Prod.mk.injEq, Option.some.injEq] at halloc
                    obtain ⟨hs1, hq⟩ := halloc
                    subst hq
                    have hs1arenas : s1.arenas = t1.arenas.set i a' := by
                      rw [← hs1]
                    have haWF : ArenaWF a := ht1WF.1 a (mem_of_getElem? hget)
                    have hinit1 : t1.initialized = true := by
                      by_contra hx
                      have hfalse : t1.initialized = false := by
                        revert hx
                        cases t1.initialized <;> simp
                      have hnil := ht1WF.2.2.1 hfalse
                      rw [hnil] at hget
                      simp at hget
                    have hs1init : s1.initialized = true := by
                      rw [← hs1]
                      exact hinit1
                    have hilt : i < t1.arenas.length :=
                      (List.getElem?_eq_some.mp hget).1
                    have hsmallj := getAccom_small hga
                    have hn' : 0 < n := Nat.pos_of_ne_zero hn
                    obtain ⟨F, hfind, herase, hlow, hhigh, hmaxge, a3, hsecond⟩ :=
                      roundtrip_arena haWF hma hn'
                    obtain ⟨hbF, halF⟩ := mallocInArena_frame haWF hma
                    set G := freeInsertArena { a' with allocs := a.allocs } F with hG
                    have hA2G :
                        freeInsertArena { a' with allocs := eraseAlloc a'.allocs F.off } F
                          = G := by
                      rw [herase, hG]
                    have hcontA : TAlloc_ptr_in_arena a' q = true := by
                      unfold TAlloc_ptr_in_arena
                      rw [hbF, halF]
                      simp only [Bool.and_eq_true, decide_eq_true_eq]
                      exact ⟨hlow, hhigh⟩
                    have hnotj : ∀ j b, j < i → t1.arenas[j]? = some b →
                        TAlloc_ptr_in_arena b q = false := by
                      intro j b hj hbj
                      rcases List.getElem?_eq_some.mp hbj with ⟨hjlt, hjb⟩
                      rcases List.getElem?_eq_some.mp hget with ⟨hilt2, hia⟩
                      have hdisjba : arenaDisj t1.arenas[j] t1.arenas[i] :=
                        List.pairwise_iff_getElem.mp ht1WF.2.1 j i hjlt hilt2 hj
                      rw [hjb, hia] at hdisjba
                      have ha40 : arenaHdr = 40 := rfl
                      unfold arenaDisj at hdisjba
                      unfold TAlloc_ptr_in_arena
                      rcases hdisjba with hcs | hcs
                      · have hx : ¬ q < b.base + b.allocated := by omega
                        simp [hx]
                      · have hx : ¬ b.base + arenaHdr ≤ q := by omega
                        simp [hx]
                    have hfindS : findArenaIdx (t1.arenas.set i a') q = some i :=
                      findArenaIdx_intro (List.getElem?_set_self hilt) hcontA
                        (fun j b hj hbj => by
                          rw [List.getElem?_set_ne (by omega : i ≠ j)] at hbj
                          exact hnotj j b hj hbj)
                    have hmain : TAlloc_free s1 q u =
                        (if i ≠ 0 ∧ G.allocated = G.max_free_space + overhead then
                          if u then
                            { s1 with arenas := ((t1.arenas.set i a').set i G).eraseIdx i }
                          else { s1 with arenas := (t1.arenas.set i a').set i G }
                        else { s1 with arenas := (t1.arenas.set i a').set i G }) := by
                      unfold TAlloc_free
                      rw [if_neg (by simp [hs1init])]
                      rw [hs1arenas, hfindS]
                      dsimp only
                      rw [List.getElem?_set_self hilt]
                      dsimp only
                      rw [hfind]
                      dsimp only
                      rw [hA2G]
                    have hlenS : s1.arenas.length = t1.arenas.length := by
                      rw [hs1arenas, List.length_set]
                    have hfree : TAlloc_free s1 q u
                        = { s1 with arenas := (t1.arenas.set i a').set i G } := by
                      by_cases hcond :
                          i ≠ 0 ∧ G.allocated = G.max_free_space + overhead
                      · cases u with
                        | false =>
                            rw [hmain, if_pos hcond, if_neg (by simp)]
                        | true =>
                            exfalso
                            have hk := hkeep
                            rw [hmain, if_pos hcond, if_pos rfl] at hk
                            have hkk : (((t1.arenas.set i a').set i G).eraseIdx i).length
                                = s1.arenas.length := hk
                            rw [List.length_eraseIdx_of_lt
                              (by simpa using hilt)] at hkk
                            rw [hlenS] at hkk
                            simp only [List.length_set] at hkk
                            omega
                      · rw [hmain, if_neg hcond]
                    rw [List.set_set] at hfree
                    have hS2init :
                        ({ s1 with arenas := t1.arenas.set i G } : TState).initialized
                          = true := hs1init
                    have hafter : afterInit { s1 with arenas := t1.arenas.set i G } 0 none
                        = { s1 with arenas := t1.arenas.set i G } := by
                      unfold afterInit
                      rw [if_pos hS2init]
                    have hacc2 : findAccomIdx (t1.arenas.set i G) n = some i :=
                      findAccomIdx_intro (List.getElem?_set_self hilt) hmaxge
                        (fun j b hj hbj => by
                          rw [List.getElem?_set_ne (by omega : i ≠ j)] at hbj
                          exact hsmallj j b hj hbj)
                    have hgacc2 : TAlloc_get_accommodating_arena
                          { s1 with arenas := t1.arenas.set i G } n none
                        = some ({ s1 with arenas := t1.arenas.set i G }, some i) := by
                      unfold TAlloc_get_accommodating_arena
                      dsimp only
                      rw [hacc2]
                    have hmall2 : TAlloc_malloc
                          { s1 with arenas := t1.arenas.set i G } n 0 none none
                        = some ({ { s1 with arenas := t1.arenas.set i G } with
                                  arenas := (t1.arenas.set i G).set i a3 }, some q) := by
                      unfold TAlloc_malloc
                      rw [hafter]
                      dsimp only
                      rw [if_neg hn, hgacc2]
                      dsimp only
                      rw [List.getElem?_set_self hilt]
                      dsimp only
                      rw [hsecond]
                    rw [hfree, hmall2]
                    rfl

/-- Witness for the amended C7 claim at a concrete input: allocating 100
bytes from the pristine allocator yields pointer 4152 inside the head
arena; freeing it keeps the arena sequence intact, and the repeated
100-byte allocation returns 4152 again. -/
theorem C7_roundtrip_witness :
    StateWF state0
    ∧ MallocOK state0 100 4096 (some 4096) none
    ∧ TAlloc_malloc state0 100 4096 (some 4096) none = some (wit1, some 4152)
    ∧ (TAlloc_free wit1 4152 true).arenas.length = wit1.arenas.length
    ∧ (TAlloc_malloc (TAlloc_free wit1 4152 true) 100 0 none none).map Prod.snd
        = some (some 4152) :=
  ⟨by decide, by decide, by decide, by decide,
   C7_roundtrip_amended state0 100 4096 (some 4096) none wit1 4152 true
     (by decide) (by decide) (by decide) (by decide)⟩

/-- TAlloc_create_arena returns NULL whenever the mapping request fails,
whatever the requested size. -/
theorem createArena_noMap (s : TState) (k : Nat) :
    TAlloc_create_arena s k none = some none := by
  unfold TAlloc_create_arena
  split
  · rfl
  · split <;> rfl

/-- On an uninitialized state with no arenas, a TAlloc_malloc call whose
mapping requests all fail completes cleanly: it returns NULL and only
records the page size and minimum arena size. -/
theorem malloc_noMaps (s : TState) (n pg : Nat)
    (h1 : s.initialized = false) (_h2 : s.arenas = []) :
    TAlloc_malloc s n pg none none =
      some ({ s with pagesize := pg, minallocsize := pg * 1000, arenas := [] },
            none) := by
  have ht : afterInit s pg none =
      { s with pagesize := pg, minallocsize := pg * 1000, arenas := [] } := by
    unfold afterInit TAlloc_init
    simp [h1]
  unfold TAlloc_malloc
  rw [ht]
  by_cases hn : n = 0
  · simp [hn]
  · simp only [hn, if_false]
    unfold TAlloc_get_accommodating_arena
    have hf : findAccomIdx ([] : List Arena) n = none := rfl
    simp only [hf]
    unfold TAlloc_alloc_more_space
    rw [createArena_noMap]

/-- Index returned by the arena-locating walk is in bounds. -/
theorem findArenaIdx_lt (l : List Arena) (p : Nat) (i : Nat)
    (h : findArenaIdx l p = some i) : i < l.length := by
  induction l generalizing i with
  | nil => simp [findArenaIdx] at h
  | cons a tl ih =>
      unfold findArenaIdx at h
      by_cases hp : TAlloc_ptr_in_arena a p = true
      · rw [if_pos hp] at h
        injection h with h
        subst h
        simp
      · rw [if_neg hp] at h
        cases hrec : findArenaIdx tl p with
        | none => rw [hrec] at h; cases h
        | some j =>
            rw [hrec] at h
            simp only [Option.map_some', Option.some.injEq] at h
            subst h
            have := ih j hrec
            simp only [List.length_cons]
            omega

/-- C1: in the head arena, after allocating 100, 200, 300, 400 bytes and
freeing the 100- and 300-byte blocks, an allocation of 350 bytes finds its
chunk (at 5200) with the scan's trailing pointer at the free chunk 4468 —
strictly after the free-list head 4136, with walked prefix of length two.
The claim says the list afterwards is the prior list with only the chunk
at 5200 replaced by its split remainder 5566, i.e.
[4136, 4468, 5566]; instead the code rewires the HEAD's next link
(line 292 writes `arena->free_list->next`, not the trailing pointer's), so
the chunk at 4468 is dropped from the list entirely. -/
theorem C1_splice_rewires_head_not_trailing :
    traceSplice = some (spliceStateBefore, spliceStateAfter, some 5216)
    ∧ splitScan spliceBefore.free_list 350 =
        some ([⟨4136, 100⟩, ⟨4468, 300⟩], ⟨5200, 4094880⟩, [])
    ∧ spliceAfter.free_list = [⟨4136, 100⟩, ⟨5566, 4094514⟩]
    ∧ Chunk.mk 4468 300 ∉ spliceAfter.free_list
    ∧ spliceAfter.free_list ≠ [⟨4136, 100⟩, ⟨4468, 300⟩, ⟨5566, 4094514⟩] := by
  decide

/-- C2: if every mapping request of the provider fails, then starting from
an uninitialized, arena-less allocator state (in particular right after
the very first initialization attempt failed), every sequence of
allocation calls completes without undefined behavior, each call returns
NULL, and the allocator stays uninitialized with no arenas. -/
theorem C2_init_failure_allocs_fail_cleanly (s : TState)
    (calls : List (Nat × Nat))
    (h1 : s.initialized = false) (h2 : s.arenas = []) :
    ∃ s' : TState,
      runNoMaps s calls = some (s', calls.map (fun _ => none))
      ∧ s'.initialized = false ∧ s'.arenas = [] := by
  induction calls generalizing s with
  | nil => exact ⟨s, rfl, h1, h2⟩
  | cons c rest ih =>
      obtain ⟨n, pg⟩ := c
      have hm := malloc_noMaps s n pg h1 h2
      obtain ⟨s', hrun, hi, ha⟩ :=
        ih { s with pagesize := pg, minallocsize := pg * 1000, arenas := [] }
          h1 rfl
      refine ⟨s', ?_, hi, ha⟩
      unfold runNoMaps
      rw [hm]
      dsimp only
      rw [hrun]
      rfl

/-- Witness for C2 at a concrete input: from the zero-initialized state,
with all mappings failing, four allocation calls (including size
4095944 = minallocsize − overhead and size 0) all return NULL and leave
the allocator uninitialized. -/
theorem C2_witness :
    state0.initialized = false ∧ state0.arenas = []
    ∧ ∃ s' : TState,
        runNoMaps state0 [(5, 4096), (4095944, 4096), (0, 4096), (5000000, 4096)]
          = some (s', [none, none, none, none])
        ∧ s'.initialized = false ∧ s'.arenas = [] := by
  refine ⟨rfl, rfl, ?_⟩
  have h := C2_init_failure_allocs_fail_cleanly state0
    [(5, 4096), (4095944, 4096), (0, 4096), (5000000, 4096)] rfl rfl
  simpa using h

/-- C3: the arena-sizing computation of TAlloc_create_arena has no branch
for an overhead-inclusive total exactly equal to `minallocsize`
(with page size 4096 and minallocsize 4096000, a request of
4095944 = minallocsize − overhead bytes): `to_allocate` is read
uninitialized there, while the totals one byte to either side round to
well-defined sizes at least the total. -/
theorem C3_exact_total_reads_uninitialized :
    createArenaSize 4096000 4096 4096000 = none
    ∧ createArenaSize 4096000 4096 4095999 = some 4096000
    ∧ createArenaSize 4096000 4096 4096001 = some 4100096
    ∧ TAlloc_create_arena
        { state0 with minallocsize := 4096000, pagesize := 4096 }
        4095944 (some 4096) = none := by
  decide

/-- C6: the live chunks of every arena tile its usable span before the
350-byte allocation of `traceSplice`, but not after: the consumed chunk's
splice drops the free chunk at 4468 from the free list, so its 316 bytes
(header plus data) belong to no live chunk — a gap. -/
theorem C6_tiling_broken_by_splice :
    traceSplice = some (spliceStateBefore, spliceStateAfter, some 5216)
    ∧ (∀ a ∈ spliceStateBefore.arenas, tilesArena a)
    ∧ ¬ (∀ a ∈ spliceStateAfter.arenas, tilesArena a) := by
  decide

/-- C7 counterexample: a state with a fully-free non-head arena (obtained
by two big allocations and one deallocation whose `munmap` failed), on
which allocate(4095946) returns the pointer 8388664, deallocate releases
the now fully-free owning arena, and allocate(4095946) again maps a fresh
arena and returns 33554488 ≠ 8388664, contradicting the claim. -/
theorem C7_roundtrip_counterexample :
    traceRelease = some (some 8388664, some 33554488)
    ∧ (33554488 : Nat) ≠ 8388664 := by
  decide

/-- C8: TAlloc_free is a no-op leaving the state unchanged whenever the
allocator is uninitialized, or no arena contains the pointer, or the
header before the pointer does not carry TALLOC_MAGIC (in the model: the
pointer is not the user pointer of a live allocated block); repeating the
call has no further effect. -/
theorem C8_invalid_free_is_noop (s : TState) (p : Nat) (u u' : Bool)
    (h : s.initialized = false
       ∨ findArenaIdx s.arenas p = none
       ∨ ∀ i, findArenaIdx s.arenas p = some i → ∀ a, s.arenas[i]? = some a →
           a.allocs.find? (fun c => c.off = p - chunkHdr) = none) :
    TAlloc_free s p u = s ∧ TAlloc_free (TAlloc_free s p u) p u' = s := by
  have h0 : ∀ v : Bool, TAlloc_free s p v = s := by
    intro v
    unfold TAlloc_free
    by_cases hinit : s.initialized = false
    · rw [if_pos hinit]
    · rw [if_neg hinit]
      rcases h with h | h | h
      · exact absurd h hinit
      · rw [h]
      · cases hf : findArenaIdx s.arenas p with
        | none => rfl
        | some i =>
            dsimp only
            cases hg : s.arenas[i]? with
            | none => rfl
            | some a =>
                dsimp only
                rw [h i hf a hg]
  exact ⟨h0 u, by rw [h0 u, h0 u']⟩

/-- Witness for C8 at a concrete input: freeing pointer 4152 on the
uninitialized start state is a no-op, twice. -/
theorem C8_witness :
    TAlloc_free state0 4152 true = state0
    ∧ TAlloc_free (TAlloc_free state0 4152 true) 4152 false = state0 :=
  C8_invalid_free_is_noop state0 4152 true false (Or.inl rfl)

/-- C9: on a deallocation that passes all guards, the owning arena is
removed from the arena sequence exactly when it is not the head arena,
its mapped size equals the post-insertion `max_free_space` plus the arena
overhead, and the `munmap` call succeeds; when `munmap` fails, the arena
sequence keeps the arena (with its free list updated) fully linked. -/
theorem C9_release_iff (s : TState) (p : Nat) (u : Bool) (i : Nat)
    (a : Arena) (F : Chunk)
    (hinit : s.initialized = true)
    (hfind : findArenaIdx s.arenas p = some i)
    (hget : s.arenas[i]? = some a)
    (hF : a.allocs.find? (fun c => c.off = p - chunkHdr) = some F) :
    ((TAlloc_free s p u).arenas =
        (s.arenas.set i
          (freeInsertArena { a with allocs := eraseAlloc a.allocs F.off } F)).eraseIdx i
      ↔ (i ≠ 0
         ∧ (freeInsertArena { a with allocs := eraseAlloc a.allocs F.off } F).allocated
             = (freeInsertArena { a with allocs := eraseAlloc a.allocs F.off } F).max_free_space
               + overhead
         ∧ u = true))
    ∧ (u = false →
        (TAlloc_free s p u).arenas =
          s.arenas.set i
            (freeInsertArena { a with allocs := eraseAlloc a.allocs F.off } F)) := by
  have hlen : i < s.arenas.length := findArenaIdx_lt s.arenas p i hfind
  have hne : ∀ l : List Arena, i < l.length → l.eraseIdx i ≠ l := by
    intro l hl hcontra
    have := congrArg List.length hcontra
    rw [List.length_eraseIdx_of_lt hl] at this
    omega
  have hmain : TAlloc_free s p u =
      (if i ≠ 0 ∧ (freeInsertArena { a with allocs := eraseAlloc a.allocs F.off } F).allocated
            = (freeInsertArena { a with allocs := eraseAlloc a.allocs F.off } F).max_free_space
              + overhead then
        if u then
          { s with arenas :=
              (s.arenas.set i
                (freeInsertArena { a with allocs := eraseAlloc a.allocs F.off } F)).eraseIdx i }
        else
          { s with arenas :=
              s.arenas.set i (freeInsertArena { a with allocs := eraseAlloc a.allocs F.off } F) }
      else
        { s with arenas :=
            s.arenas.set i (freeInsertArena { a with allocs := eraseAlloc a.allocs F.off } F) }) := by
    unfold TAlloc_free
    rw [if_neg (show ¬ s.initialized = false by simp [hinit]), hfind]
    dsimp only
    rw [hget]
    dsimp only
    rw [hF]
  set a2 := freeInsertArena { a with allocs := eraseAlloc a.allocs F.off } F with ha2
  have hlen2 : i < (s.arenas.set i a2).length := by simpa using hlen
  have haren : (TAlloc_free s p u).arenas =
      (if i ≠ 0 ∧ a2.allocated = a2.max_free_space + overhead ∧ u = true then
        (s.arenas.set i a2).eraseIdx i
      else s.arenas.set i a2) := by
    rw [hmain]
    by_cases hc : i ≠ 0 ∧ a2.allocated = a2.max_free_space + overhead
    · cases u with
      | true => simp [hc]
      | false => simp [hc]
    · have hc3 : ¬ (i ≠ 0 ∧ a2.allocated = a2.max_free_space + overhead ∧ u = true) := by
        intro hx
        exact hc ⟨hx.1, hx.2.1⟩
      rw [if_neg hc, if_neg hc3]
  constructor
  · rw [haren]
    by_cases hq : i ≠ 0 ∧ a2.allocated = a2.max_free_space + overhead ∧ u = true
    · rw [if_pos hq]
      simp [hq]
    · rw [if_neg hq]
      constructor
      · intro habs
        exact absurd habs.symm (hne (s.arenas.set i a2) hlen2)
      · intro hx
        exact absurd hx hq
  · intro hu
    rw [haren, if_neg]
    intro hx
    rw [hu] at hx
    cases hx.2.2

/-- Witness for C9 at a concrete input: on the two-arena state, freeing
the only block of the second arena (pointer 8388664) with a succeeding
`munmap` removes that arena from the sequence, as the biconditional's
right side holds there. -/
theorem C9_witness :
    ((TAlloc_free twoArenaState 8388664 true).arenas =
        (twoArenaState.arenas.set 1
          (freeInsertArena
            { arenaB with allocs := eraseAlloc arenaB.allocs 8388648 }
            ⟨8388648, 4095945⟩)).eraseIdx 1
      ↔ (1 ≠ 0
         ∧ (freeInsertArena
              { arenaB with allocs := eraseAlloc arenaB.allocs 8388648 }
              ⟨8388648, 4095945⟩).allocated
             = (freeInsertArena
                  { arenaB with allocs := eraseAlloc arenaB.allocs 8388648 }
                  ⟨8388648, 4095945⟩).max_free_space + overhead
         ∧ true = true)) := by
  have h := C9_release_iff twoArenaState 8388664 true 1
    arenaB ⟨8388648, 4095945⟩ rfl (by decide) (by decide) (by decide)
  exact h.1

/-- C10: one allocation of 4095945 bytes creates a second arena at
8388608 which becomes the arena list's tail; freeing its only block
releases and unlinks that arena, but `state.arena_tail` still holds
8388608 even though the only live arena is the head at 4096 — the tail
reference dangles at unmapped memory instead of designating the last
arena of the sequence. -/
theorem C10_arena_tail_dangles :
    (TAlloc_malloc state0 4095945 4096 (some 4096) (some 8388608)).map
        (fun r =>
          ((TAlloc_free r.1 (r.2.getD 0) true).arena_tail,
           (TAlloc_free r.1 (r.2.getD 0) true).arenas.map Arena.base))
      = some (some 8388608, [4096])
    ∧ (8388608 : Nat) ∉ [(4096 : Nat)] := by
  decide

end Talloc
